import Mathlib

/-!
# PackHunt: hex map editor (`src/App.js`)

A shallow embedding of the hex-grid core of `HexMapEditor`: the coordinate
enumeration, the neighbour function, the traversability predicate, the
`findPath` search, and the operations that change the map state (cell edit,
clear, import, export).

Modelling conventions.

* JavaScript numbers that hold coordinates and hop counts are integers (`Int`).
  Numbers that may be `NaN` are values of `JSNum`.
* An object key built by the template `${q},${r}` is modelled by the pair
  `(q, r)`: on integers the template is injective, and the program never looks
  a map up under any other key.
* A property that may be absent from an object is an `Option`; `none` is
  JavaScript's `undefined`.
* `while` loops carry a fuel argument; a result of `none` means that the fuel
  ran out, and is different from the empty path `some []`.
-/

namespace PackHunt

/-! ## Numbers -/

/-- A JavaScript number as far as this program is concerned: an integer or `NaN`. -/
inductive JSNum where
  | nan : JSNum
  | num (n : Int) : JSNum
deriving DecidableEq

namespace JSNum

/-- Reading a numeric property that may be absent: `undefined` converts to `NaN`. -/
def ofProp : Option Int → JSNum
  | some n => num n
  | none => nan

/-- Reading a number out of a `Map`: `Map.get` gives `undefined` for a missing key. -/
def ofGet : Option JSNum → JSNum
  | some x => x
  | none => nan

/-- Binary `+`. -/
def add : JSNum → JSNum → JSNum
  | num a, num b => num (a + b)
  | _, _ => nan

/-- Binary `-`. -/
def sub : JSNum → JSNum → JSNum
  | num a, num b => num (a - b)
  | _, _ => nan

/-- `Math.abs`. -/
def abs : JSNum → JSNum
  | num a => num (if a < 0 then -a else a)
  | nan => nan

/-- `Math.max` of three arguments: `NaN` as soon as one argument is `NaN`. -/
def max3 : JSNum → JSNum → JSNum → JSNum
  | num a, num b, num c => num (max (max a b) c)
  | _, _, _ => nan

/-- The comparison `<`: false as soon as one side is `NaN`. -/
def lt : JSNum → JSNum → Bool
  | num a, num b => decide (a < b)
  | _, _ => false

end JSNum

/-- `Math.abs` on an integer. -/
def jsAbs (x : Int) : Int := if x < 0 then -x else x

/-! ## Coordinates -/

/-- `const MAP_RADIUS = 16`. -/
def MAP_RADIUS : Int := 16

/-- A coordinate object. `generateHexCoords` and `getNeighbors` build objects
`{q, r, s}`; `findPath` builds `start` and `end` as `{q, r}`, without `s`. -/
structure Coord where
  q : Int
  r : Int
  s : Option Int
deriving DecidableEq

/-- The key of a coordinate in the map state and in the `Map`s of `findPath`. -/
abbrev Key := Int × Int

/-- `getKey = (coord) => `${coord.q},${coord.r}``. -/
def getKey (coord : Coord) : Key := (coord.q, coord.r)

/-- The integers `lo, lo+1, ..., hi` visited by `for (let i = lo; i <= hi; i++)`. -/
def intRange (lo hi : Int) : List Int :=
  (List.range (hi + 1 - lo).toNat).map fun (i : Nat) => lo + (i : Int)

/-- `generateHexCoords`, with the radius as a parameter. -/
def generateHexCoords (R : Int) : List Coord :=
  (intRange (-R) R).flatMap fun q =>
    let r1 := max (-R) (-q - R)
    let r2 := min R (-q + R)
    (intRange r1 r2).map fun r => { q := q, r := r, s := some (-q - r) }

/-- `const hexCoords = generateHexCoords()`. -/
def hexCoords : List Coord := generateHexCoords MAP_RADIUS

/-- The `directions` table of `getNeighbors`. -/
def directions : List (Int × Int) :=
  [(1, 0), (1, -1), (0, -1), (-1, 0), (-1, 1), (0, 1)]

/-- `getNeighbors`: the six neighbours, filtered to the map bounds. -/
def getNeighbors (q r : Int) : List Coord :=
  (directions.map fun d =>
      ({ q := q + d.1, r := r + d.2, s := some (-(q + d.1) - (r + d.2)) } : Coord)).filter
    fun coord =>
      decide (jsAbs coord.q ≤ MAP_RADIUS) &&
      decide (jsAbs coord.r ≤ MAP_RADIUS) &&
      (match coord.s with
        | some s => decide (jsAbs s ≤ MAP_RADIUS)
        | none => false)

/-! ## Map state -/

/-- The map state object: the value stored under each coordinate key, `none`
when the key is absent. Values are the strings the program stores; a value of
another JSON type (possible only after an import) is represented by its text. -/
abbrev MapState := Key → Option String

/-- A JavaScript `Map` or object indexed by coordinate keys. -/
abbrev KeyMap (V : Type) := Key → Option V

/-- The empty `Map` or object `{}`. -/
def KeyMap.empty {V : Type} : KeyMap V := fun _ => none

/-- `Map.set(k, v)` and the object update `{...prev, [k]: v}`. -/
def KeyMap.set {V : Type} (m : KeyMap V) (k : Key) (v : V) : KeyMap V :=
  fun k' => if k' = k then some v else m k'

/-- `Map.has(k)`. -/
def KeyMap.has {V : Type} (m : KeyMap V) (k : Key) : Bool := (m k).isSome

/-- The keys of `CELL_TYPES`. -/
def CELL_TYPES : List String :=
  ["unknown", "camp", "field", "signal", "mountain", "lake", "chest", "mine", "enemy"]

/-- The `useState` initializer of `mapState`. -/
def initialState : MapState :=
  hexCoords.foldl
    (fun st coord =>
      KeyMap.set st (getKey coord) (if coord.q = 0 ∧ coord.r = 0 then "camp" else "unknown"))
    KeyMap.empty

/-- `isTraversable`. -/
def isTraversable (mapState : MapState) (q r : Int) : Bool :=
  let cellType := mapState (q, r)
  cellType != some "mountain" && cellType != some "lake"

/-! ## findPath -/

/-- The `hexDistance` closure of `findPath`. -/
def hexDistance (a b : Coord) : JSNum :=
  JSNum.max3
    (JSNum.abs (JSNum.sub (JSNum.num a.q) (JSNum.num b.q)))
    (JSNum.abs (JSNum.sub (JSNum.num a.r) (JSNum.num b.r)))
    (JSNum.abs (JSNum.sub (JSNum.ofProp a.s) (JSNum.ofProp b.s)))

/-- The variables of `findPath` that its main loop changes. -/
structure SearchState where
  openSet : List Coord
  cameFrom : KeyMap Coord
  gScore : KeyMap JSNum
  fScore : KeyMap JSNum

/-- The scan `for (let i = 1; i < openSet.length; i++)` over the elements
after `openSet[0]`, carrying `(current, currentIndex)`. -/
def selectLoop (fScore : KeyMap JSNum) : List Coord → Nat → Coord × Nat → Coord × Nat
  | [], _, acc => acc
  | x :: xs, i, acc =>
    if JSNum.lt (JSNum.ofGet (fScore (getKey x))) (JSNum.ofGet (fScore (getKey acc.1))) then
      selectLoop fScore xs (i + 1) (x, i)
    else
      selectLoop fScore xs (i + 1) acc

/-- The body of `for (const neighbor of neighbors)`. -/
def expandNeighbor (mapState : MapState) (end_ current : Coord) (st : SearchState)
    (neighbor : Coord) : SearchState :=
  if !isTraversable mapState neighbor.q neighbor.r then st
  else
    let tentativeGScore := JSNum.add (JSNum.ofGet (st.gScore (getKey current))) (JSNum.num 1)
    let neighborKey := getKey neighbor
    if !st.gScore.has neighborKey ||
        JSNum.lt tentativeGScore (JSNum.ofGet (st.gScore neighborKey)) then
      { cameFrom := st.cameFrom.set neighborKey current
        gScore := st.gScore.set neighborKey tentativeGScore
        fScore := st.fScore.set neighborKey (JSNum.add tentativeGScore (hexDistance neighbor end_))
        openSet :=
          if st.openSet.any fun node => decide (node.q = neighbor.q) && decide (node.r = neighbor.r)
          then st.openSet
          else st.openSet ++ [neighbor] }
    else st

/-- The reconstruction loop `while (temp) { path.unshift(temp); temp = cameFrom.get(...) }`. -/
def reconstruct (cameFrom : KeyMap Coord) : Nat → Option Coord → List Coord → Option (List Coord)
  | 0, _, _ => none
  | _ + 1, none, path => some path
  | fuel + 1, some temp, path => reconstruct cameFrom fuel (cameFrom (getKey temp)) (temp :: path)

/-- The number of iterations allowed to each loop of `findPath`. -/
def searchFuel : Nat := hexCoords.length + 2

/-- The main loop `while (openSet.length > 0)`. -/
def searchLoop (mapState : MapState) (end_ : Coord) : Nat → SearchState → Option (List Coord)
  | 0, _ => none
  | fuel + 1, st =>
    match st.openSet with
    | [] => some []
    | first :: rest =>
      let sel := selectLoop st.fScore rest 1 (first, 0)
      let current := sel.1
      let st1 : SearchState := { st with openSet := st.openSet.eraseIdx sel.2 }
      if current.q = end_.q ∧ current.r = end_.r then
        reconstruct st1.cameFrom searchFuel (some current) []
      else
        searchLoop mapState end_ fuel
          ((getNeighbors current.q current.r).foldl (expandNeighbor mapState end_ current) st1)

/-- The state of `findPath` when it enters the main loop. -/
def initialSearch (start end_ : Coord) : SearchState :=
  { openSet := [start]
    cameFrom := KeyMap.empty
    gScore := (KeyMap.empty : KeyMap JSNum).set (getKey start) (JSNum.num 0)
    fScore := (KeyMap.empty : KeyMap JSNum).set (getKey start) (hexDistance start end_) }

/-- `findPath`; `none` only if a loop exceeds `searchFuel` iterations. -/
def findPath (mapState : MapState) (startQ startR endQ endR : Int) : Option (List Coord) :=
  let start : Coord := { q := startQ, r := startR, s := none }
  let end_ : Coord := { q := endQ, r := endR, s := none }
  if !isTraversable mapState endQ endR then some []
  else searchLoop mapState end_ searchFuel (initialSearch start end_)

/-! ## The editor state and its operations -/

/-- The React state of the component. -/
structure AppState where
  mapState : MapState
  selectedType : String
  pathfindingMode : Bool
  pathDestination : Option Coord
  currentPath : List Coord

/-- The state after the first render. -/
def AppState.init : AppState :=
  { mapState := initialState
    selectedType := "unknown"
    pathfindingMode := false
    pathDestination := none
    currentPath := [] }

/-- `handleHexClick`. -/
def handleHexClick (coord : Coord) (st : AppState) : AppState :=
  let key := getKey coord
  if st.pathfindingMode then
    let path := (findPath st.mapState 0 0 coord.q coord.r).getD []
    { st with currentPath := path, pathDestination := some coord }
  else if coord.q = 0 ∧ coord.r = 0 then st
  else { st with mapState := KeyMap.set st.mapState key st.selectedType }

/-- The value of the `cells` property of a parsed document, as `importMap` sees it. -/
inductive CellsField where
  /-- No `cells` property, or a falsy one (`null`, `false`, `0`, `""`). -/
  | falsy : CellsField
  /-- A truthy value that has no coordinate keys: a number, `true`, a
  non-empty string, an array. -/
  | scalar : CellsField
  /-- An object, given by the value under each coordinate key. -/
  | object (cells : MapState) : CellsField

/-- A parsed snapshot document `{ radius, cells, timestamp }`. -/
structure Document where
  radius : Option Int
  cells : CellsField
  timestamp : Option String

/-- What `reader.onload` receives: text on which `JSON.parse` (or the property
access on its result) throws, or a parsed document. -/
inductive ImportInput where
  | unparsable : ImportInput
  | document (doc : Document) : ImportInput

/-- `exportMap`: the document handed to `JSON.stringify`; `now` is `new Date().toISOString()`. -/
def exportMap (now : String) (st : AppState) : Document :=
  { radius := some MAP_RADIUS, cells := CellsField.object st.mapState, timestamp := some now }

/-- `importMap`: the `reader.onload` handler. The `catch` branch only raises an alert. -/
def importMap (input : ImportInput) (st : AppState) : AppState :=
  match input with
  | ImportInput.unparsable => st
  | ImportInput.document doc =>
    match doc.cells with
    | CellsField.falsy => st
    | CellsField.scalar => { st with mapState := KeyMap.empty }
    | CellsField.object cells => { st with mapState := cells }

/-- The updater that `clearMap` passes to `setMapState`: it builds `newState`
from `{}` by its own loop over `hexCoords` and does not read `prev`. -/
def clearedState (_prev : MapState) : MapState :=
  hexCoords.foldl
    (fun newState coord =>
      KeyMap.set newState (getKey coord)
        (if coord.q = 0 ∧ coord.r = 0 then "camp" else "unknown"))
    KeyMap.empty

/-- `clearMap`. -/
def clearMap (st : AppState) : AppState :=
  { st with mapState := clearedState st.mapState, currentPath := [], pathDestination := none }

/-- What can be said, from `importMap` alone, about its
`alert('Error importing map data')`. -/
inductive AlertOutcome where
  /-- The `catch` branch runs: parsing, or the property access, threw. -/
  | raised : AlertOutcome
  /-- Nothing in the `try` block can throw: no alert. -/
  | notRaised : AlertOutcome
  /-- `setMapState` was called inside the `try` block: the alert is raised
  exactly if that call throws, which happens when the component re-renders
  synchronously and the render throws; the handler does not decide it. -/
  | afterSetMapState : AlertOutcome
deriving DecidableEq

/-- The alert of `importMap`, as far as the handler determines it. -/
def importAlert (input : ImportInput) : AlertOutcome :=
  match input with
  | ImportInput.unparsable => AlertOutcome.raised
  | ImportInput.document doc =>
    match doc.cells with
    | CellsField.falsy => AlertOutcome.notRaised
    | CellsField.scalar => AlertOutcome.afterSetMapState
    | CellsField.object _ => AlertOutcome.afterSetMapState

/-- `togglePathfinding`. -/
def togglePathfinding (st : AppState) : AppState :=
  { st with pathfindingMode := !st.pathfindingMode, currentPath := [], pathDestination := none }

/-- What the user can do to the component. -/
inductive Action where
  /-- A palette button: `setSelectedType(type)`. -/
  | selectType (type : String) : Action
  /-- A click on a hex of the map. -/
  | click (coord : Coord) : Action
  | togglePathfinding : Action
  | clear : Action
  /-- A file chosen in the import control, once read. -/
  | importFile (input : ImportInput) : Action

/-- The effect of one action. -/
def step (st : AppState) : Action → AppState
  | Action.selectType type => { st with selectedType := type }
  | Action.click coord => handleHexClick coord st
  | Action.togglePathfinding => togglePathfinding st
  | Action.clear => clearMap st
  | Action.importFile input => importMap input st

/-- The state after a sequence of actions. -/
def run (st : AppState) (actions : List Action) : AppState := actions.foldl step st

/-- The palette rendered by the component:
`Object.entries(CELL_TYPES).filter(([type]) => type !== 'camp')`. -/
def palette : List String := CELL_TYPES.filter fun type => type != "camp"

/-- The actions the rendered component offers: a palette button selects a type
of the palette, and the hexes that can be clicked are those of `hexCoords`. -/
def Action.offered : Action → Prop
  | Action.selectType type => type ∈ palette
  | Action.click coord => coord ∈ hexCoords
  | _ => True

/-- An action that is not an import replacing the map state: any action but
the import of a document whose `cells` is truthy. -/
def Action.keepsCells : Action → Prop
  | Action.importFile (ImportInput.document doc) =>
    (match doc.cells with
      | CellsField.falsy => True
      | _ => False)
  | _ => True

/-! ## Auxiliary definitions used in the statements and proofs -/

/-- The number of coordinates `generateHexCoords` pushes in the column `q`:
the inner loop runs from `r1` to `r2`. -/
def columnLength (R q : Int) : Nat := (min R (-q + R) + 1 - max (-R) (-q - R)).toNat

/-- A key within the map radius: `max(|q|, |r|, |s|) ≤ MAP_RADIUS` with `s = -q - r`. -/
def inBounds (k : Key) : Prop :=
  jsAbs k.1 ≤ MAP_RADIUS ∧ jsAbs k.2 ≤ MAP_RADIUS ∧ jsAbs (-k.1 - k.2) ≤ MAP_RADIUS

instance (k : Key) : Decidable (inBounds k) :=
  inferInstanceAs (Decidable
    (jsAbs k.1 ≤ MAP_RADIUS ∧ jsAbs k.2 ≤ MAP_RADIUS ∧ jsAbs (-k.1 - k.2) ≤ MAP_RADIUS))

/-- The origin invariant: the cell at `(0, 0)` is `camp`. -/
def OriginIsCamp (mapState : MapState) : Prop := mapState (0, 0) = some "camp"

/-- The totality invariant: an entry for every key within the radius, no key
outside it, and no `camp` other than at the origin. -/
def MapTotal (mapState : MapState) : Prop :=
  ∀ k : Key, (inBounds k → mapState k ≠ none) ∧ (¬ inBounds k → mapState k = none) ∧
    (mapState k = some "camp" → k = (0, 0))

/-! ## The search graph and the invariant of the main loop -/

/-- An edge of the graph `findPath` searches: `b` is the key of a coordinate
that `getNeighbors` returns at `a`, and the cell `b` is traversable. -/
def Edge (mapState : MapState) (a b : Key) : Prop :=
  b ∈ (getNeighbors a.1 a.2).map getKey ∧ isTraversable mapState b.1 b.2 = true

/-- A walk of `n` edges from `s` to a key. -/
inductive Reach (mapState : MapState) (s : Key) : Nat → Key → Prop where
  | start : Reach mapState s 0 s
  | step {n : Nat} {a b : Key} : Reach mapState s n a → Edge mapState a b →
      Reach mapState s (n + 1) b

/-- The key has the hop count `n` in `gScore`. -/
def HasG (st : SearchState) (k : Key) (n : Nat) : Prop :=
  st.gScore k = some (JSNum.num (n : Int))

/-- The keys of the nodes in `openSet`. -/
def openKeys (st : SearchState) : List Key := st.openSet.map getKey

/-- The number of keys within the radius that have no `gScore` yet. -/
def unseen (st : SearchState) : Nat :=
  (hexCoords.map getKey).countP fun k => (st.gScore k).isNone

/-- The quantity that every iteration of the main loop decreases. -/
def measure (st : SearchState) : Nat := unseen st + st.openSet.length

/-- The state after `expandNeighbor` takes in an undiscovered neighbour at hop count `d + 1`. -/
def pushNode (st : SearchState) (current neighbor : Coord) (d : Nat) : SearchState :=
  { openSet := st.openSet ++ [neighbor]
    cameFrom := st.cameFrom.set (getKey neighbor) current
    gScore := st.gScore.set (getKey neighbor) (JSNum.num ((d : Int) + 1))
    fScore := st.fScore.set (getKey neighbor) JSNum.nan }

/-- The invariant of the main loop of `findPath` from the key `sk` to the key
`ek`. The relation `ex` lists the edges out of the node under expansion whose
target has not been looked at yet; it is empty at the head of the loop. -/
structure Inv (mapState : MapState) (sk ek : Key) (ex : Key → Key → Prop)
    (st : SearchState) : Prop where
  g_start : HasG st sk 0
  g_num : ∀ k v, st.gScore k = some v → ∃ n : Nat, v = JSNum.num (n : Int)
  g_reach : ∀ k n, HasG st k n → Reach mapState sk n k
  f_nan : ∀ k v, st.fScore k = some v → v = JSNum.nan
  open_g : ∀ x ∈ st.openSet, ∃ n, HasG st (getKey x) n
  open_nodup : (openKeys st).Nodup
  open_sorted : st.openSet.Pairwise fun x y =>
    ∀ i j, HasG st (getKey x) i → HasG st (getKey y) j → i ≤ j
  open_span : ∀ x ∈ st.openSet, ∀ y ∈ st.openSet,
    ∀ i j, HasG st (getKey x) i → HasG st (getKey y) j → j ≤ i + 1
  closed_le : ∀ k i, HasG st k i → k ∉ openKeys st →
    ∀ x ∈ st.openSet, ∀ j, HasG st (getKey x) j → i ≤ j
  tri : ∀ a i, HasG st a i → a ∉ openKeys st → ∀ b, Edge mapState a b →
    ex a b ∨ ∃ j, HasG st b j ∧ j ≤ i + 1
  closed_ne_end : ∀ k i, HasG st k i → k ∉ openKeys st → k ≠ ek
  came : ∀ k p, st.cameFrom k = some p →
    ∃ i, HasG st (getKey p) i ∧ HasG st k (i + 1) ∧ Edge mapState (getKey p) k
  came_def : ∀ k i, HasG st k i → k ≠ sk → ∃ p, st.cameFrom k = some p
  bounds : ∀ k i, HasG st k i → k = sk ∨ inBounds k
  depth : ∀ k i, HasG st k i → i + measure st ≤ hexCoords.length + 1

/-- The invariant inside the loop over the neighbours of `c`, whose hop count
is `d`, with the neighbours `todo` still to be looked at; `M` is the measure of
the state at the head of the iteration. -/
structure Mid (mapState : MapState) (sk ek : Key) (c : Coord) (d M : Nat) (todo : List Coord)
    (st : SearchState) : Prop where
  inv : Inv mapState sk ek (fun a b => a = getKey c ∧ b ∈ todo.map getKey) st
  todo_sub : ∀ x ∈ todo, x ∈ getNeighbors c.q c.r
  g_cur : HasG st (getKey c) d
  cur_closed : getKey c ∉ openKeys st
  window : ∀ x ∈ st.openSet, ∀ j, HasG st (getKey x) j → d ≤ j ∧ j ≤ d + 1
  seen_le : ∀ k i, HasG st k i → i ≤ d + 1 ∧ (k ∉ openKeys st → i ≤ d)
  room : d + 1 + measure st ≤ hexCoords.length + 1
  meas_lt : measure st < M

/-- A path as `findPath` returns it, from the key `sk` to the key `ek`: the
keys of consecutive elements are joined by an edge. -/
def GoodPath (mapState : MapState) (sk ek : Key) (path : List Coord) : Prop :=
  (path.map getKey).head? = some sk ∧ (path.map getKey).getLast? = some ek ∧
    List.Chain' (Edge mapState) (path.map getKey)

/-- What `findPath` returns for the keys `sk` and `ek`: the empty path when no
walk leads from `sk` to `ek`, and otherwise a path of `d + 1` nodes from `sk`
to `ek` where `d` is the least number of edges of a walk from `sk` to `ek`. -/
def SearchResult (mapState : MapState) (sk ek : Key) (path : List Coord) : Prop :=
  (path = [] ∧ ∀ n, ¬ Reach mapState sk n ek) ∨
    ∃ d, path.length = d + 1 ∧ GoodPath mapState sk ek path ∧ Reach mapState sk d ek ∧
      ∀ n, Reach mapState sk n ek → d ≤ n

/-! ## Routes -/

/-- The hex distance `max(|dq|, |dr|, |ds|)` between two keys, with `s = -q - r`. -/
def hexDist (a b : Key) : Int :=
  max (max (jsAbs (a.1 - b.1)) (jsAbs (a.2 - b.2))) (jsAbs ((-a.1 - a.2) - (-b.1 - b.2)))

/-- Two keys at hex distance exactly 1. -/
def hexAdjacent (a b : Key) : Prop := hexDist a b = 1

instance (a b : Key) : Decidable (hexAdjacent a b) :=
  inferInstanceAs (Decidable (hexDist a b = 1))

/-- A sequence of keys from `start` to `end_`, all within the radius, in which
consecutive elements are hex-adjacent and every element after the first is
traversable. -/
def Route (mapState : MapState) (start end_ : Key) (seq : List Key) : Prop :=
  seq.head? = some start ∧ seq.getLast? = some end_ ∧ (∀ k ∈ seq, inBounds k) ∧
    List.Chain' hexAdjacent seq ∧ ∀ k ∈ seq.tail, isTraversable mapState k.1 k.2 = true

/-! ## Example maps -/

/-- The map of the example scenario: `(1, 0)` set to `mountain` and `(1, -1)`
set to `field` by two edits of the initial map. -/
def scenarioMap : MapState :=
  KeyMap.set (KeyMap.set initialState (1, 0) "mountain") (1, -1) "field"

/-- The initial map with the cell `(1, 0)` edited to `mountain`. -/
def blockedCellMap : MapState := KeyMap.set initialState (1, 0) "mountain"

/-- The initial map with the six neighbours of `(3, 0)` edited to `mountain` or `lake`. -/
def ringMap : MapState :=
  KeyMap.set (KeyMap.set (KeyMap.set (KeyMap.set (KeyMap.set (KeyMap.set initialState
    (4, 0) "mountain") (4, -1) "lake") (3, -1) "mountain") (2, 0) "lake") (2, 1) "mountain")
    (3, 1) "lake"

/-! ## Import and export -/

/-- Every value of the map state is one of the nine keys of `CELL_TYPES`. -/
def TagsClosed (mapState : MapState) : Prop :=
  ∀ k v, mapState k = some v → v ∈ CELL_TYPES

/-- An action that brings no value outside `CELL_TYPES`: any action but
the import of a document whose `cells` object holds some other value. -/
def Action.tagsKnown : Action → Prop
  | Action.importFile (ImportInput.document doc) =>
    (match doc.cells with
      | CellsField.object cells => TagsClosed cells
      | _ => True)
  | _ => True

/-! ## Iterations of the main loop, and the reference search -/

/-- The node that the selection scan of the main loop picks, with its index
in `openSet`; `none` when `openSet` is empty. -/
def selectCurrent (st : SearchState) : Option (Coord × Nat) :=
  match st.openSet with
  | [] => none
  | first :: rest => some (selectLoop st.fScore rest 1 (first, 0))

/-- The state at the end of an iteration of the main loop that does not
return: the selected node is removed and its neighbours are expanded. -/
def expandCurrent (mapState : MapState) (end_ : Coord) (st : SearchState) : SearchState :=
  match st.openSet with
  | [] => st
  | first :: rest =>
    let sel := selectLoop st.fScore rest 1 (first, 0)
    (getNeighbors sel.1.q sel.1.r).foldl (expandNeighbor mapState end_ sel.1)
      { st with openSet := st.openSet.eraseIdx sel.2 }

/-- The states in which `findPath(start, end)` stands at the head of its main loop. -/
inductive Visited (mapState : MapState) (start end_ : Coord) : SearchState → Prop where
  | init : Visited mapState start end_ (initialSearch start end_)
  | next {st : SearchState} {current : Coord} {index : Nat} :
      Visited mapState start end_ st → selectCurrent st = some (current, index) →
      ¬ (current.q = end_.q ∧ current.r = end_.r) →
      Visited mapState start end_ (expandCurrent mapState end_ st)

/-- The neighbours of a key in the order of the direction table
`[1,0], [1,-1], [0,-1], [-1,0], [-1,1], [0,1]`, within the map radius. -/
def bfsNeighbors (k : Key) : List Key :=
  (directions.map fun d => ((k.1 + d.1, k.2 + d.2) : Key)).filter fun n => decide (inBounds n)

/-- The state of a plain breadth-first search on keys: a first-in-first-out
queue whose entries are a discovered key together with the keys that lead
back from it to the start (nearest first), and the discovered keys. -/
structure BfsState where
  queue : List (Key × List Key)
  visited : List Key

/-- A breadth-first search looks at one neighbour of the entry `current`: a
traversable neighbour that has not been discovered is marked and put at the
back of the queue, with the way back through `current`. -/
def bfsVisit (mapState : MapState) (current : Key × List Key) (st : BfsState) (neighbor : Key) :
    BfsState :=
  if isTraversable mapState neighbor.1 neighbor.2 && !st.visited.contains neighbor then
    { queue := st.queue ++ [(neighbor, current.1 :: current.2)]
      visited := neighbor :: st.visited }
  else st

/-- The loop of a plain breadth-first search: take the entry at the front of
the queue; if its key is the end, return the keys from the start to it;
otherwise look at its neighbours in the order of the direction table. An
empty queue means that there is no path. -/
def bfsLoop (mapState : MapState) (end_ : Key) : Nat → BfsState → Option (List Key)
  | 0, _ => none
  | fuel + 1, st =>
    match st.queue with
    | [] => some []
    | current :: rest =>
      if current.1 = end_ then some (current.1 :: current.2).reverse
      else
        bfsLoop mapState end_ fuel
          ((bfsNeighbors current.1).foldl (bfsVisit mapState current) { st with queue := rest })

/-- A plain breadth-first search from start to end: it starts from the queue
that holds the start alone and has no test on the end cell. -/
def bfsPath (mapState : MapState) (startQ startR endQ endR : Int) : Option (List Key) :=
  bfsLoop mapState (endQ, endR) searchFuel
    { queue := [((startQ, startR), [])], visited := [(startQ, startR)] }

/-- The keys met when following `cameFrom` from a key back to a key without entry. -/
inductive Trace (cameFrom : KeyMap Coord) : Key → List Key → Prop where
  | root {k : Key} : cameFrom k = none → Trace cameFrom k []
  | link {k : Key} {p : Coord} {l : List Key} : cameFrom k = some p →
      Trace cameFrom (getKey p) l → Trace cameFrom k (getKey p :: l)

/-- The state of `findPath` and the state of the breadth-first search agree:
the same keys in the same order in `openSet` and in the queue, the way back
stored with each queue entry is the one `cameFrom` gives, and the discovered
keys are those with a `gScore`. -/
def Sim (st : SearchState) (bst : BfsState) : Prop :=
  bst.queue.map Prod.fst = st.openSet.map getKey ∧
    (∀ e ∈ bst.queue, Trace st.cameFrom e.1 e.2) ∧
    ∀ k, k ∈ bst.visited ↔ (st.gScore k).isSome

/-- The state of `findPath(0, 0, -2, 0)` on the initial map after the first
iteration of its main loop. -/
def westSearch : SearchState :=
  expandCurrent initialState { q := -2, r := 0, s := none }
    (initialSearch { q := 0, r := 0, s := none } { q := -2, r := 0, s := none })

/-! # Theorems -/

/-! ## Traversability -/

/-- C7. `isTraversable` is false exactly when the value stored for the cell is
`mountain` or `lake`; it is true for each of the seven other tags, and for a
cell with no entry. -/
theorem isTraversable_policy (mapState : MapState) (q r : Int) :
    (isTraversable mapState q r = false ↔
        mapState (q, r) = some "mountain" ∨ mapState (q, r) = some "lake") ∧
    (["unknown", "camp", "field", "signal", "chest", "mine", "enemy"].all fun t =>
        isTraversable (KeyMap.set mapState (q, r) t) q r) = true ∧
    isTraversable (KeyMap.empty : MapState) q r = true := by
  refine ⟨?_, ?_, ?_⟩
  · unfold isTraversable
    cases h : mapState (q, r) with
    | none => simp
    | some t => simp [bne_iff_ne, ← not_and_or, Bool.and_eq_false_iff]; tauto
  · simp [isTraversable, KeyMap.set]
  · simp [isTraversable, KeyMap.empty]

/-! ## Neighbours -/

theorem mem_getNeighbors {q r : Int} {c : Coord} (h : c ∈ getNeighbors q r) :
    (c.q - q, c.r - r) ∈ directions ∧ c.s = some (-c.q - c.r) ∧
      jsAbs c.q ≤ MAP_RADIUS ∧ jsAbs c.r ≤ MAP_RADIUS ∧ jsAbs (-c.q - c.r) ≤ MAP_RADIUS := by
  simp only [getNeighbors, List.mem_filter, List.mem_map] at h
  obtain ⟨⟨d, hd, rfl⟩, hb⟩ := h
  simp only [Bool.and_eq_true, decide_eq_true_eq] at hb
  refine ⟨?_, ?_, hb.1.1, hb.1.2, ?_⟩
  · simpa using hd
  · simp
  · have := hb.2
    have e : -(q + d.1) - (r + d.2) = -(q + d.1) - (r + d.2) := rfl
    simpa using this


/-- On two coordinate objects that both carry `s`, `hexDistance` is the integer
`max(|dq|, |dr|, |ds|)`. -/
theorem hexDistance_full (a b : Coord) (sa sb : Int) (ha : a.s = some sa) (hb : b.s = some sb) :
    hexDistance a b =
      JSNum.num (max (max (jsAbs (a.q - b.q)) (jsAbs (a.r - b.r))) (jsAbs (sa - sb))) := by
  simp [hexDistance, ha, hb, JSNum.ofProp, JSNum.sub, JSNum.abs, JSNum.max3, jsAbs]

/-- C10. Every coordinate returned by `getNeighbors q r` has `q + r + s = 0`, is
at hex distance exactly 1 from `(q, r)` and lies within the map radius; for an
interior coordinate the result has exactly 6 distinct elements, and for a
coordinate on the boundary it has fewer than 6. -/
theorem getNeighbors_spec (q r : Int) :
    (∀ c ∈ getNeighbors q r,
        (∃ s, c.s = some s ∧ c.q + c.r + s = 0 ∧
          jsAbs c.q ≤ MAP_RADIUS ∧ jsAbs c.r ≤ MAP_RADIUS ∧ jsAbs s ≤ MAP_RADIUS) ∧
        hexDistance c { q := q, r := r, s := some (-q - r) } = JSNum.num 1) ∧
    (max (max (jsAbs q) (jsAbs r)) (jsAbs (-q - r)) < MAP_RADIUS →
        (getNeighbors q r).length = 6 ∧ (getNeighbors q r).Nodup) ∧
    (max (max (jsAbs q) (jsAbs r)) (jsAbs (-q - r)) = MAP_RADIUS →
        (getNeighbors q r).length < 6) := by
  refine ⟨?_, ?_, ?_⟩
  · intro c hc
    obtain ⟨hd, hs, h1, h2, h3⟩ := mem_getNeighbors hc
    refine ⟨⟨_, hs, by omega, h1, h2, h3⟩, ?_⟩
    rw [hexDistance_full c _ _ _ hs rfl]
    simp only [directions, List.mem_cons, Prod.mk.injEq, List.mem_singleton, List.not_mem_nil,
      or_false] at hd
    congr 1
    simp only [jsAbs]
    rcases hd with h | h | h | h | h | h <;> (obtain ⟨ha, hb⟩ := h; split_ifs <;> omega)
  · intro h
    have hb : -MAP_RADIUS < q ∧ q < MAP_RADIUS ∧ -MAP_RADIUS < r ∧ r < MAP_RADIUS ∧
        -MAP_RADIUS < -q - r ∧ -q - r < MAP_RADIUS := by
      simp only [jsAbs] at h; omega
    have hall : getNeighbors q r = directions.map fun d =>
        ({ q := q + d.1, r := r + d.2, s := some (-(q + d.1) - (r + d.2)) } : Coord) := by
      unfold getNeighbors
      rw [List.filter_eq_self]
      intro c hc
      simp only [List.mem_map, directions, List.mem_cons, List.mem_singleton, List.not_mem_nil,
        or_false] at hc
      obtain ⟨d, hd, rfl⟩ := hc
      simp only [jsAbs, Bool.and_eq_true, decide_eq_true_eq]
      rcases hd with h | h | h | h | h | h <;> subst h <;>
        refine ⟨⟨?_, ?_⟩, ?_⟩ <;> dsimp only <;> split_ifs <;> omega
    rw [hall]
    refine ⟨by simp [directions], ?_⟩
    refine List.Nodup.map ?_ (by decide)
    intro d d' hdd
    simp only [Coord.mk.injEq] at hdd
    ext <;> omega
  · intro h
    have hlen : (getNeighbors q r).length < (directions.map fun d =>
        ({ q := q + d.1, r := r + d.2, s := some (-(q + d.1) - (r + d.2)) } : Coord)).length := by
      unfold getNeighbors
      rw [List.length_filter_lt_length_iff_exists]
      have hc : q = MAP_RADIUS ∨ q = -MAP_RADIUS ∨ r = MAP_RADIUS ∨ r = -MAP_RADIUS ∨
          -q - r = MAP_RADIUS ∨ -q - r = -MAP_RADIUS := by
        simp only [jsAbs] at h; have : (0 : Int) ≤ MAP_RADIUS := by decide
        omega
      have hR : (0 : Int) ≤ MAP_RADIUS := by decide
      simp only [List.mem_map, directions, List.mem_cons, List.mem_singleton, List.not_mem_nil,
        or_false, jsAbs, Bool.and_eq_true, decide_eq_true_eq, exists_exists_and_eq_and,
        exists_eq_or_imp, exists_eq_left]
      rcases hc with h | h | h | h | h | h
      · refine ⟨_, Or.inl rfl, fun hh => ?_⟩
        have := hh.1.1; dsimp only at this; split_ifs at this <;> omega
      · refine ⟨_, Or.inr (Or.inr (Or.inr (Or.inl rfl))), fun hh => ?_⟩
        have := hh.1.1; dsimp only at this; split_ifs at this <;> omega
      · refine ⟨_, Or.inr (Or.inr (Or.inr (Or.inr (Or.inr rfl)))), fun hh => ?_⟩
        have := hh.1.2; dsimp only at this; split_ifs at this <;> omega
      · refine ⟨_, Or.inr (Or.inr (Or.inl rfl)), fun hh => ?_⟩
        have := hh.1.2; dsimp only at this; split_ifs at this <;> omega
      · refine ⟨_, Or.inr (Or.inr (Or.inr (Or.inl rfl))), fun hh => ?_⟩
        have := hh.2; simp only [decide_eq_true_eq] at this; split_ifs at this <;> omega
      · refine ⟨_, Or.inl rfl, fun hh => ?_⟩
        have := hh.2; simp only [decide_eq_true_eq] at this; split_ifs at this <;> omega
    simpa [directions] using hlen

/-! ## Region enumeration -/

theorem length_intRange (lo hi : Int) : (intRange lo hi).length = (hi + 1 - lo).toNat := by
  simp [intRange]

theorem mem_intRange {lo hi x : Int} : x ∈ intRange lo hi ↔ lo ≤ x ∧ x ≤ hi := by
  simp only [intRange, List.mem_map, List.mem_range]
  constructor
  · rintro ⟨i, hi, rfl⟩; omega
  · intro h; exact ⟨(x - lo).toNat, by omega, by omega⟩

theorem nodup_intRange (lo hi : Int) : (intRange lo hi).Nodup := by
  refine List.Nodup.map ?_ (List.nodup_range _)
  intro a b h
  simp only at h
  omega

theorem mem_generateHexCoords {R : Int} {c : Coord} :
    c ∈ generateHexCoords R ↔
      c.s = some (-c.q - c.r) ∧ jsAbs c.q ≤ R ∧ jsAbs c.r ≤ R ∧ jsAbs (-c.q - c.r) ≤ R := by
  simp only [generateHexCoords, List.mem_flatMap, List.mem_map, mem_intRange, jsAbs]
  constructor
  · rintro ⟨q, hq, r, hr, rfl⟩
    refine ⟨rfl, ?_, ?_, ?_⟩ <;> dsimp only <;> split_ifs <;> omega
  · rintro ⟨hs, h1, h2, h3⟩
    refine ⟨c.q, ?_, c.r, ?_, ?_⟩
    · split_ifs at h1 <;> omega
    · split_ifs at h1 h2 h3 <;> omega
    · cases c; simp_all

theorem nodup_generateHexCoords (R : Int) : (generateHexCoords R).Nodup := by
  unfold generateHexCoords
  rw [List.nodup_flatMap]
  refine ⟨fun q _ => ?_, ?_⟩
  · refine List.Nodup.map ?_ (nodup_intRange _ _)
    intro a b h
    simpa using h
  · refine List.Pairwise.imp_of_mem ?_ (nodup_intRange _ _)
    intro a b _ _ hab
    simp only [Function.onFun, List.disjoint_left, List.mem_map]
    rintro c ⟨r, _, rfl⟩ ⟨r', _, h⟩
    simp only [Coord.mk.injEq] at h
    exact hab h.1.symm

theorem length_generateHexCoords_eq (R : Int) :
    (generateHexCoords R).length =
      ((List.range (R + 1 - -R).toNat).map fun (i : Nat) => columnLength R (-R + (i : Int))).sum := by
  simp only [generateHexCoords, List.length_flatMap, intRange, List.map_map, List.length_map,
    List.length_range]
  congr 1
  apply List.map_congr_left
  intro i _
  simp [columnLength]

theorem columnSum_lower (n k : Nat) (hk : k ≤ n + 1) :
    2 * ((List.range k).map fun (i : Nat) => columnLength n (-(n : Int) + (i : Int))).sum =
      k * (2 * n + 1 + k) := by
  induction k with
  | zero => simp
  | succ k ih =>
    have hcol : columnLength n (-(n : Int) + (k : Int)) = n + 1 + k := by
      unfold columnLength; omega
    rw [List.range_succ, List.map_append, List.sum_append, Nat.mul_add, ih (by omega)]
    simp only [List.map_cons, List.map_nil, List.sum_cons, List.sum_nil, hcol]
    ring

theorem columnSum_upper (n j : Nat) (hj : j ≤ n) :
    2 * ((List.range (n + 1 + j)).map fun (i : Nat) =>
        columnLength n (-(n : Int) + (i : Int))).sum + j * j =
      (n + 1) * (3 * n + 2) + j * (4 * n + 1) := by
  induction j with
  | zero =>
    have := columnSum_lower n (n + 1) le_rfl
    simp only [Nat.add_zero]
    rw [this]; ring
  | succ j ih =>
    have hcol : columnLength n (-(n : Int) + ((n + 1 + j : Nat) : Int)) = 2 * n - j := by
      unfold columnLength; omega
    have ih' := ih (by omega)
    rw [← Nat.add_assoc, List.range_succ, List.map_append, List.sum_append, Nat.mul_add]
    simp only [List.map_cons, List.map_nil, List.sum_cons, List.sum_nil, hcol]
    have h2 : 2 * (2 * n - j) + 2 * j = 4 * n := by omega
    nlinarith [ih', h2]

theorem length_generateHexCoords (R : Int) (hR : 0 ≤ R) :
    ((generateHexCoords R).length : Int) = 3 * R ^ 2 + 3 * R + 1 := by
  obtain ⟨n, rfl⟩ := Int.eq_ofNat_of_zero_le hR
  rw [length_generateHexCoords_eq]
  have hlen : ((n : Int) + 1 - -(n : Int)).toNat = n + 1 + n := by omega
  rw [hlen]
  have key := columnSum_upper n n le_rfl
  generalize ((List.range (n + 1 + n)).map fun (i : Nat) =>
      columnLength n (-(n : Int) + (i : Int))).sum = S at key ⊢
  have key' : (2 * (S : Int) + n * n) = (n + 1) * (3 * n + 2) + n * (4 * n + 1) := by
    exact_mod_cast key
  linarith

theorem nodup_generateHexCoords_keys (R : Int) : ((generateHexCoords R).map getKey).Nodup := by
  refine List.Nodup.map_on ?_ (nodup_generateHexCoords R)
  intro a ha b hb hab
  have hsa := (mem_generateHexCoords.mp ha).1
  have hsb := (mem_generateHexCoords.mp hb).1
  simp only [getKey, Prod.mk.injEq] at hab
  cases a; cases b
  simp_all

/-- C9. For every radius `R ≥ 0`, `generateHexCoords` returns exactly
`3R² + 3R + 1` coordinates, each with `q + r + s = 0` and
`max(|q|, |r|, |s|) ≤ R`, no key occurs twice, and every coordinate that
satisfies the two conditions is in the list. -/
theorem generateHexCoords_spec (R : Int) (hR : 0 ≤ R) :
    ((generateHexCoords R).length : Int) = 3 * R ^ 2 + 3 * R + 1 ∧
    (∀ c ∈ generateHexCoords R, ∃ s, c.s = some s ∧ c.q + c.r + s = 0 ∧
        max (max (jsAbs c.q) (jsAbs c.r)) (jsAbs s) ≤ R) ∧
    (generateHexCoords R).Nodup ∧ ((generateHexCoords R).map getKey).Nodup ∧
    (∀ q r s : Int, q + r + s = 0 → max (max (jsAbs q) (jsAbs r)) (jsAbs s) ≤ R →
        ({ q := q, r := r, s := some s } : Coord) ∈ generateHexCoords R) := by
  refine ⟨length_generateHexCoords R hR, ?_, nodup_generateHexCoords R,
    nodup_generateHexCoords_keys R, ?_⟩
  · intro c hc
    obtain ⟨hs, h1, h2, h3⟩ := mem_generateHexCoords.mp hc
    exact ⟨_, hs, by omega, by omega⟩
  · intro q r s hsum hmax
    rw [mem_generateHexCoords]
    have hs : s = -q - r := by omega
    subst hs
    dsimp only
    exact ⟨rfl, by omega, by omega, by omega⟩

/-- The radius of the program, `MAP_RADIUS = 16`: the enumeration has 817 coordinates. -/
theorem generateHexCoords_spec_witness :
    (0 : Int) ≤ MAP_RADIUS ∧ (hexCoords.length : Int) = 817 :=
  ⟨by decide, (generateHexCoords_spec MAP_RADIUS (by decide)).1⟩

/-- An interior coordinate has six neighbours, a corner of the region fewer. -/
theorem getNeighbors_spec_witness :
    ((getNeighbors 0 0).length = 6 ∧ (getNeighbors 0 0).Nodup) ∧
      (getNeighbors 16 (-16)).length < 6 :=
  ⟨(getNeighbors_spec 0 0).2.1 (by decide), (getNeighbors_spec 16 (-16)).2.2 (by decide)⟩

/-! ## Map state -/

theorem foldl_set_apply (f : Coord → String) (F : Key → String)
    (hf : ∀ c, f c = F (getKey c)) (l : List Coord) (m0 : MapState) (k : Key) :
    (l.foldl (fun st coord => KeyMap.set st (getKey coord) (f coord)) m0) k =
      if k ∈ l.map getKey then some (F k) else m0 k := by
  induction l generalizing m0 with
  | nil => simp
  | cons c l ih =>
    rw [List.foldl_cons, ih]
    by_cases h1 : k ∈ l.map getKey
    · simp [h1]
    · by_cases h2 : k = getKey c
      · subst h2; simp [h1, KeyMap.set, hf]
      · have h3 : ¬ getKey c = k := fun h => h2 h.symm
        simp [h1, h2, h3, KeyMap.set]

theorem mem_hexCoords_keys (k : Key) : k ∈ hexCoords.map getKey ↔ inBounds k := by
  simp only [List.mem_map, hexCoords, mem_generateHexCoords, inBounds]
  constructor
  · rintro ⟨c, ⟨_, h1, h2, h3⟩, rfl⟩
    exact ⟨h1, h2, h3⟩
  · rintro ⟨h1, h2, h3⟩
    exact ⟨⟨k.1, k.2, some (-k.1 - k.2)⟩, ⟨rfl, h1, h2, h3⟩, rfl⟩

theorem initialState_apply (k : Key) :
    initialState k =
      if inBounds k then some (if k = (0, 0) then "camp" else "unknown") else none := by
  unfold initialState
  rw [foldl_set_apply _ (fun k => if k = (0, 0) then "camp" else "unknown")
    (fun c => by simp [getKey, Prod.ext_iff])]
  simp only [mem_hexCoords_keys, KeyMap.empty]

/-- The loop of `clearMap` is the loop of the initializer. -/
theorem clearedState_eq (prev : MapState) : clearedState prev = initialState := rfl

theorem initialState_mapTotal : MapTotal initialState := by
  intro k
  rw [initialState_apply]
  by_cases hb : inBounds k
  · by_cases h0 : k = (0, 0) <;> simp [hb, h0]
  · simp [hb]

/-! ## Editor invariants -/

/-- What edits, clears and the rest preserve, apart from imports that replace the map. -/
theorem step_preserves (st : AppState) (a : Action) (ho : a.offered) (hk : a.keepsCells)
    (hsel : st.selectedType ∈ palette) (hm : MapTotal st.mapState)
    (hc : OriginIsCamp st.mapState) :
    (step st a).selectedType ∈ palette ∧ MapTotal (step st a).mapState ∧
      OriginIsCamp (step st a).mapState := by
  cases a with
  | selectType t => exact ⟨ho, hm, hc⟩
  | togglePathfinding => exact ⟨hsel, hm, hc⟩
  | clear =>
    simp only [step, clearMap, clearedState_eq]
    refine ⟨hsel, initialState_mapTotal, ?_⟩
    unfold OriginIsCamp
    rw [initialState_apply, if_pos (by decide), if_pos rfl]
  | importFile input =>
    cases input with
    | unparsable => exact ⟨hsel, hm, hc⟩
    | document doc =>
      simp only [Action.keepsCells] at hk
      simp only [step, importMap]
      split at hk
      · next h => rw [h]; exact ⟨hsel, hm, hc⟩
      · exact hk.elim
  | click coord =>
    simp only [step, handleHexClick]
    split_ifs with h1 h2
    · exact ⟨hsel, hm, hc⟩
    · exact ⟨hsel, hm, hc⟩
    · refine ⟨hsel, ?_, ?_⟩
      · intro k
        have hkey : inBounds (getKey coord) := (mem_hexCoords_keys _).mp (List.mem_map_of_mem _ ho)
        have hne : getKey coord ≠ (0, 0) := by
          intro h; apply h2; simpa [getKey, Prod.ext_iff] using h
        have hcamp : st.selectedType ≠ "camp" := by
          intro h; rw [h] at hsel; revert hsel; decide
        by_cases hk' : k = getKey coord
        · subst hk'
          simp [KeyMap.set, hkey, hne, hcamp]
        · simpa [KeyMap.set, hk'] using hm k
      · have hne : ¬ ((0, 0) : Key) = getKey coord := by
          intro h; apply h2; simpa [getKey, Prod.ext_iff, eq_comm] using h
        show (if ((0, 0) : Key) = getKey coord then some st.selectedType
          else st.mapState (0, 0)) = some "camp"
        rw [if_neg hne]
        exact hc

/-- Offered actions other than replacing imports keep the map total and the origin `camp`. -/
theorem run_preserves (actions : List Action) :
    ∀ st : AppState, (∀ a ∈ actions, a.offered ∧ a.keepsCells) →
      st.selectedType ∈ palette → MapTotal st.mapState → OriginIsCamp st.mapState →
      MapTotal (run st actions).mapState ∧ OriginIsCamp (run st actions).mapState := by
  induction actions with
  | nil => intro st _ _ hm hc; exact ⟨hm, hc⟩
  | cons a l ih =>
    intro st h hsel hm hc
    have h1 := h a (List.mem_cons_self _ _)
    obtain ⟨h2, h3, h4⟩ := step_preserves st a h1.1 h1.2 hsel hm hc
    exact ih (step st a) (fun b hb => h b (List.mem_cons_of_mem _ hb)) h2 h3 h4

/-- C5, the code at the failing inputs. Importing a document whose `cells`
gives the key `0,0` the terrain `mountain` leaves `mountain` at the origin,
and importing a document whose `cells` has no key `0,0` leaves the origin
without an entry: the origin is not `camp` after either import. -/
theorem importMap_overwrites_origin :
    (run AppState.init [Action.importFile (ImportInput.document
        { radius := some 16
          cells := CellsField.object (KeyMap.set initialState (0, 0) "mountain")
          timestamp := none })]).mapState (0, 0) = some "mountain" ∧
    (run AppState.init [Action.importFile (ImportInput.document
        { radius := some 16
          cells := CellsField.object KeyMap.empty
          timestamp := none })]).mapState (0, 0) = none := by
  constructor
  · show KeyMap.set initialState (0, 0) "mountain" (0, 0) = some "mountain"
    simp [KeyMap.set]
  · rfl

/-- C6 as stated fails: after the import of a document whose `cells` is
`{ "17,0": "camp" }` the map has no entry for the in-bounds key `(1, 0)`, has
the out-of-bounds key `(17, 0)`, and has `camp` away from the origin. -/
theorem mapTotal_fails_after_import :
    (Action.importFile (ImportInput.document
        { radius := some 16
          cells := CellsField.object (KeyMap.set KeyMap.empty (17, 0) "camp")
          timestamp := none })).offered ∧
    ¬ MapTotal (run AppState.init [Action.importFile (ImportInput.document
        { radius := some 16
          cells := CellsField.object (KeyMap.set KeyMap.empty (17, 0) "camp")
          timestamp := none })]).mapState := by
  refine ⟨trivial, fun h => ?_⟩
  have h1 := (h (1, 0)).1 (by decide)
  exact h1 (by simp [run, step, importMap, KeyMap.set, KeyMap.empty])

/-- C6, amended. In every map state reached from the initial state by offered
actions other than imports that replace the map (edits of cells of `hexCoords`
with a terrain of the palette, clears, mode switches, imports that leave the
map alone), the map has an entry for every key within the radius, no key
outside it, and no `camp` away from the origin. -/
theorem mapTotal_of_edits_and_clears (actions : List Action)
    (h : ∀ a ∈ actions, a.offered ∧ a.keepsCells) :
    MapTotal (run AppState.init actions).mapState := by
  have hsel : AppState.init.selectedType ∈ palette := by
    simp [AppState.init, palette, CELL_TYPES, List.filter]
  have hmap : AppState.init.mapState = initialState := by simp only [AppState.init]
  have hm : MapTotal AppState.init.mapState := by rw [hmap]; exact initialState_mapTotal
  have hc : OriginIsCamp AppState.init.mapState := by
    unfold OriginIsCamp
    rw [hmap, initialState_apply, if_pos (by decide), if_pos rfl]
  exact (run_preserves actions AppState.init h hsel hm hc).1

/-- An edit of `(1, 0)` to `mountain` followed by a clear and an edit of `(2, -1)`. -/
theorem mapTotal_of_edits_and_clears_witness :
    MapTotal (run AppState.init
      [Action.selectType "mountain", Action.click { q := 1, r := 0, s := some (-1) },
        Action.clear, Action.click { q := 2, r := -1, s := some (-1) }]).mapState :=
  mapTotal_of_edits_and_clears _ (by
    intro a ha
    simp only [List.mem_cons, List.mem_singleton, List.not_mem_nil, or_false] at ha
    rcases ha with rfl | rfl | rfl | rfl
    · exact ⟨by simp [Action.offered, palette, CELL_TYPES, List.filter], trivial⟩
    · exact ⟨by simp only [Action.offered, hexCoords, mem_generateHexCoords]; decide, trivial⟩
    · exact ⟨trivial, trivial⟩
    · exact ⟨by simp only [Action.offered, hexCoords, mem_generateHexCoords]; decide, trivial⟩)

/-- C8, the code at the failing input. In the initial map the cell `(1, 0)` is
`unknown`, `isTraversable` is true for it, and the route `findPath` returns
from the camp to `(1, 0)` ends on that undiscovered cell. -/
theorem findPath_uses_unknown_cell :
    initialState (1, 0) = some "unknown" ∧ isTraversable initialState 1 0 = true ∧
    findPath initialState 0 0 1 0 =
      some [{ q := 0, r := 0, s := none }, { q := 1, r := 0, s := some (-1) }] := by
  refine ⟨?_, ?_, ?_⟩
  · rw [initialState_apply]; decide
  · unfold isTraversable; rw [initialState_apply]; decide
  · decide!

/-! ## The search: invariant of the main loop -/

theorem HasG.unique {st : SearchState} {k : Key} {i j : Nat} (h1 : HasG st k i)
    (h2 : HasG st k j) : i = j := by
  unfold HasG at h1 h2
  rw [h1] at h2
  simpa using h2

theorem hexDistance_no_s (a : Coord) (q r : Int) :
    hexDistance a { q := q, r := r, s := none } = JSNum.nan := by
  cases a with
  | mk aq ar as => cases as <;> rfl

theorem any_key_eq (l : List Coord) (nb : Coord) :
    (l.any fun node => decide (node.q = nb.q) && decide (node.r = nb.r)) = true ↔
      getKey nb ∈ l.map getKey := by
  simp only [List.any_eq_true, Bool.and_eq_true, decide_eq_true_eq, List.mem_map, getKey,
    Prod.mk.injEq]

/-- Under the invariant the body of the neighbour loop either takes in an
undiscovered traversable neighbour or changes nothing. -/
theorem expandNeighbor_eq (mapState : MapState) (end_ c nb : Coord) (st : SearchState) (d : Nat)
    (hend : end_.s = none) (hG : HasG st (getKey c) d)
    (hnum : ∀ v, st.gScore (getKey nb) = some v → ∃ n : Nat, v = JSNum.num (n : Int))
    (hle : ∀ j, HasG st (getKey nb) j → j ≤ d + 1)
    (hopen : st.gScore (getKey nb) = none → getKey nb ∉ openKeys st) :
    expandNeighbor mapState end_ c st nb =
      if isTraversable mapState nb.q nb.r = true ∧ st.gScore (getKey nb) = none then
        pushNode st c nb d
      else st := by
  have hendq : end_ = { q := end_.q, r := end_.r, s := none } := by
    cases end_; simp_all
  unfold expandNeighbor
  by_cases ht : isTraversable mapState nb.q nb.r = true
  · simp only [ht, Bool.not_true, Bool.false_eq_true, if_false, true_and]
    have hten : JSNum.add (JSNum.ofGet (st.gScore (getKey c))) (JSNum.num 1) =
        JSNum.num ((d : Int) + 1) := by
      rw [hG]; simp [JSNum.ofGet, JSNum.add]
    rw [hten]
    cases hg : st.gScore (getKey nb) with
    | none =>
      have hno := hopen hg
      have hany : (st.openSet.any fun node =>
          decide (node.q = nb.q) && decide (node.r = nb.r)) = false := by
        rw [Bool.eq_false_iff]
        intro h
        exact hno ((any_key_eq _ _).mp h)
      have hf : JSNum.add (JSNum.num ((d : Int) + 1)) (hexDistance nb end_) = JSNum.nan := by
        rw [hendq, hexDistance_no_s]; rfl
      simp [KeyMap.has, hg, hany, hf, pushNode]
    | some v =>
      obtain ⟨j, rfl⟩ := hnum v hg
      have hj := hle j hg
      have hlt : JSNum.lt (JSNum.num ((d : Int) + 1)) (JSNum.ofGet (some (JSNum.num (j : Int))))
          = false := by
        simp only [JSNum.ofGet, JSNum.lt, decide_eq_false_iff_not]
        omega
      simp [KeyMap.has, hg, hlt]
  · simp [ht]

theorem countP_update {α : Type} [DecidableEq α] (l : List α) (p p' : α → Bool) (k : α)
    (hn : l.Nodup) (hk : k ∈ l) (hp : p k = true) (hp' : p' k = false)
    (hx : ∀ x, x ≠ k → p' x = p x) : l.countP p' + 1 = l.countP p := by
  induction l with
  | nil => simp at hk
  | cons a t ih =>
    rw [List.nodup_cons] at hn
    by_cases hak : a = k
    · subst hak
      have hcong : t.countP p' = t.countP p := by
        apply List.countP_congr
        intro x hxt
        have hxa : x ≠ a := fun h => hn.1 (h ▸ hxt)
        rw [hx x hxa]
      rw [List.countP_cons_of_neg _ _ (by simp [hp']), List.countP_cons_of_pos _ _ hp, hcong]
    · have hkt : k ∈ t := by
        rcases List.mem_cons.mp hk with h | h
        · exact absurd h.symm hak
        · exact h
      have := ih hn.2 hkt
      simp only [List.countP_cons, hx a hak]
      omega

theorem pushNode_gScore (st : SearchState) (c nb : Coord) (d : Nat) (k : Key) :
    (pushNode st c nb d).gScore k =
      if k = getKey nb then some (JSNum.num ((d : Int) + 1)) else st.gScore k := rfl

theorem pushNode_HasG_new (st : SearchState) (c nb : Coord) (d : Nat) :
    HasG (pushNode st c nb d) (getKey nb) (d + 1) := by
  unfold HasG
  rw [pushNode_gScore, if_pos rfl]
  push_cast
  rfl

theorem pushNode_HasG_old {st : SearchState} {c nb : Coord} {d : Nat} {k : Key} {n : Nat}
    (hg : st.gScore (getKey nb) = none) (h : HasG st k n) : HasG (pushNode st c nb d) k n := by
  unfold HasG at h ⊢
  rw [pushNode_gScore]
  have hne : k ≠ getKey nb := by
    intro e; rw [e, hg] at h; exact Option.noConfusion h
  rw [if_neg hne]
  exact h

theorem pushNode_HasG_inv {st : SearchState} {c nb : Coord} {d : Nat} {k : Key} {n : Nat}
    (h : HasG (pushNode st c nb d) k n) : (k = getKey nb ∧ n = d + 1) ∨ (k ≠ getKey nb ∧ HasG st k n) := by
  unfold HasG at h ⊢
  rw [pushNode_gScore] at h
  by_cases hk : k = getKey nb
  · rw [if_pos hk] at h
    left
    refine ⟨hk, ?_⟩
    simp only [Option.some.injEq, JSNum.num.injEq] at h
    omega
  · rw [if_neg hk] at h
    exact Or.inr ⟨hk, h⟩

theorem pushNode_openKeys (st : SearchState) (c nb : Coord) (d : Nat) :
    openKeys (pushNode st c nb d) = openKeys st ++ [getKey nb] := by
  simp [openKeys, pushNode]

theorem nodup_hexCoords_keys : (hexCoords.map getKey).Nodup :=
  nodup_generateHexCoords_keys MAP_RADIUS

theorem pushNode_measure {st : SearchState} {c nb : Coord} {d : Nat}
    (hg : st.gScore (getKey nb) = none) (hb : inBounds (getKey nb)) :
    measure (pushNode st c nb d) = measure st := by
  have h := countP_update (hexCoords.map getKey) (fun k => (st.gScore k).isNone)
    (fun k => ((pushNode st c nb d).gScore k).isNone) (getKey nb) nodup_hexCoords_keys
    ((mem_hexCoords_keys _).mpr hb) (by simp [hg]) (by simp [pushNode_gScore])
    (fun x hx => by simp [pushNode_gScore, hx])
  unfold measure unseen
  have hl : (pushNode st c nb d).openSet.length = st.openSet.length + 1 := by simp [pushNode]
  omega

theorem mem_getNeighbors_edge {mapState : MapState} {c nb : Coord}
    (h : nb ∈ getNeighbors c.q c.r) (ht : isTraversable mapState nb.q nb.r = true) :
    Edge mapState (getKey c) (getKey nb) :=
  ⟨List.mem_map_of_mem _ h, ht⟩

theorem mem_getNeighbors_inBounds {q r : Int} {nb : Coord} (h : nb ∈ getNeighbors q r) :
    inBounds (getKey nb) := by
  obtain ⟨_, _, h1, h2, h3⟩ := mem_getNeighbors h
  exact ⟨h1, h2, h3⟩

/-- A neighbour that is not traversable, or already has a hop count, is dropped from `todo`. -/
theorem Mid.skip {mapState : MapState} {sk ek : Key} {c nb : Coord} {d M : Nat}
    {todo : List Coord} {st : SearchState} (h : Mid mapState sk ek c d M (nb :: todo) st)
    (hc : isTraversable mapState nb.q nb.r = true → ∃ j, HasG st (getKey nb) j) :
    Mid mapState sk ek c d M todo st where
  inv :=
    { g_start := h.inv.g_start
      g_num := h.inv.g_num
      g_reach := h.inv.g_reach
      f_nan := h.inv.f_nan
      open_g := h.inv.open_g
      open_nodup := h.inv.open_nodup
      open_sorted := h.inv.open_sorted
      open_span := h.inv.open_span
      closed_le := h.inv.closed_le
      closed_ne_end := h.inv.closed_ne_end
      came := h.inv.came
      came_def := h.inv.came_def
      bounds := h.inv.bounds
      depth := h.inv.depth
      tri := by
        intro a i ha hcl b hab
        rcases h.inv.tri a i ha hcl b hab with ⟨hac, hb⟩ | hr
        · rw [List.map_cons, List.mem_cons] at hb
          rcases hb with hb | hb
          · right
            have ht : isTraversable mapState nb.q nb.r = true := by
              have := hab.2; rw [hb] at this; exact this
            obtain ⟨j, hj⟩ := hc ht
            refine ⟨j, hb ▸ hj, ?_⟩
            have hid : i = d := HasG.unique ha (hac ▸ h.g_cur)
            have := (h.seen_le _ _ hj).1
            omega
          · exact Or.inl ⟨hac, hb⟩
        · exact Or.inr hr }
  todo_sub := fun x hx => h.todo_sub x (List.mem_cons_of_mem _ hx)
  g_cur := h.g_cur
  cur_closed := h.cur_closed
  window := h.window
  seen_le := h.seen_le
  room := h.room
  meas_lt := h.meas_lt

/-- An undiscovered traversable neighbour is taken in at hop count `d + 1`. -/
theorem Mid.push {mapState : MapState} {sk ek : Key} {c nb : Coord} {d M : Nat}
    {todo : List Coord} {st : SearchState} (h : Mid mapState sk ek c d M (nb :: todo) st)
    (ht : isTraversable mapState nb.q nb.r = true) (hg : st.gScore (getKey nb) = none) :
    Mid mapState sk ek c d M todo (pushNode st c nb d) := by
  have hnb : nb ∈ getNeighbors c.q c.r := h.todo_sub nb (List.mem_cons_self _ _)
  have hedge : Edge mapState (getKey c) (getKey nb) := mem_getNeighbors_edge hnb ht
  have hnew : HasG (pushNode st c nb d) (getKey nb) (d + 1) := pushNode_HasG_new st c nb d
  have hnot : getKey nb ∉ openKeys st := by
    intro hm
    obtain ⟨x, hx, hxk⟩ := List.mem_map.mp hm
    obtain ⟨n, hn⟩ := h.inv.open_g x hx
    rw [hxk] at hn
    unfold HasG at hn
    rw [hg] at hn
    exact Option.noConfusion hn
  have hck : getKey c ≠ getKey nb := by
    intro e
    have := h.g_cur
    unfold HasG at this
    rw [e, hg] at this
    exact Option.noConfusion this
  have hmeas := pushNode_measure (c := c) (d := d) hg (mem_getNeighbors_inBounds hnb)
  -- a hop count of an old open node is the same before and after
  have hback : ∀ x ∈ st.openSet, ∀ i, HasG (pushNode st c nb d) (getKey x) i →
      HasG st (getKey x) i := by
    intro x hx i hi
    rcases pushNode_HasG_inv hi with ⟨e, _⟩ | ⟨_, h2⟩
    · exact absurd (e ▸ List.mem_map_of_mem getKey hx) hnot
    · exact h2
  have hclosed : ∀ k, k ∉ openKeys (pushNode st c nb d) →
      k ∉ openKeys st ∧ k ≠ getKey nb := by
    intro k hk
    rw [pushNode_openKeys, List.mem_append, List.mem_singleton] at hk
    exact ⟨fun h1 => hk (Or.inl h1), fun h2 => hk (Or.inr h2)⟩
  have hbackc : ∀ k i, k ≠ getKey nb → HasG (pushNode st c nb d) k i → HasG st k i := by
    intro k i hk hi
    rcases pushNode_HasG_inv hi with ⟨e, _⟩ | ⟨_, h2⟩
    · exact absurd e hk
    · exact h2
  have hopen : (pushNode st c nb d).openSet = st.openSet ++ [nb] := rfl
  have hwin : ∀ x ∈ (pushNode st c nb d).openSet, ∀ j,
      HasG (pushNode st c nb d) (getKey x) j → d ≤ j ∧ j ≤ d + 1 := by
    intro x hx j hj
    rw [hopen, List.mem_append, List.mem_singleton] at hx
    rcases hx with hx | hx
    · exact h.window x hx j (hback x hx j hj)
    · subst hx
      have := HasG.unique hj hnew
      omega
  refine
    { inv :=
        { g_start := pushNode_HasG_old hg h.inv.g_start
          g_num := ?_
          g_reach := ?_
          f_nan := ?_
          open_g := ?_
          open_nodup := ?_
          open_sorted := ?_
          open_span := ?_
          closed_le := ?_
          tri := ?_
          closed_ne_end := ?_
          came := ?_
          came_def := ?_
          bounds := ?_
          depth := ?_ }
      todo_sub := fun x hx => h.todo_sub x (List.mem_cons_of_mem _ hx)
      g_cur := pushNode_HasG_old hg h.g_cur
      cur_closed := ?_
      window := hwin
      seen_le := ?_
      room := by rw [hmeas]; exact h.room
      meas_lt := by rw [hmeas]; exact h.meas_lt }
  · -- g_num
    intro k v hv
    rw [pushNode_gScore] at hv
    by_cases hk : k = getKey nb
    · rw [if_pos hk] at hv
      refine ⟨d + 1, ?_⟩
      simp only [Option.some.injEq] at hv
      rw [← hv]; push_cast; rfl
    · rw [if_neg hk] at hv
      exact h.inv.g_num k v hv
  · -- g_reach
    intro k n hn
    rcases pushNode_HasG_inv hn with ⟨e, e2⟩ | ⟨_, h2⟩
    · subst e; subst e2
      exact Reach.step (h.inv.g_reach _ _ h.g_cur) hedge
    · exact h.inv.g_reach k n h2
  · -- f_nan
    intro k v hv
    have e : (pushNode st c nb d).fScore k =
        if k = getKey nb then some JSNum.nan else st.fScore k := rfl
    rw [e] at hv
    by_cases hk : k = getKey nb
    · rw [if_pos hk] at hv
      simp only [Option.some.injEq] at hv
      exact hv.symm
    · rw [if_neg hk] at hv
      exact h.inv.f_nan k v hv
  · -- open_g
    intro x hx
    rw [hopen, List.mem_append, List.mem_singleton] at hx
    rcases hx with hx | hx
    · obtain ⟨n, hn⟩ := h.inv.open_g x hx
      exact ⟨n, pushNode_HasG_old hg hn⟩
    · subst hx
      exact ⟨d + 1, hnew⟩
  · -- open_nodup
    rw [pushNode_openKeys]
    refine List.Nodup.append h.inv.open_nodup (List.nodup_singleton _) ?_
    intro k hk1 hk2
    rw [List.mem_singleton] at hk2
    exact hnot (hk2 ▸ hk1)
  · -- open_sorted
    rw [hopen, List.pairwise_append]
    refine ⟨?_, List.pairwise_singleton _ _, ?_⟩
    · refine List.Pairwise.imp_of_mem ?_ h.inv.open_sorted
      intro x y hx hy hxy i j hi hj
      exact hxy i j (hback x hx i hi) (hback y hy j hj)
    · intro x hx y hy i j hi hj
      rw [List.mem_singleton] at hy
      subst hy
      have h1 := HasG.unique hj hnew
      have h2 := (h.window x hx i (hback x hx i hi)).2
      omega
  · -- open_span
    intro x hx y hy i j hi hj
    have h1 := hwin x hx i hi
    have h2 := hwin y hy j hj
    omega
  · -- closed_le
    intro k i hi hk x hx j hj
    obtain ⟨hk1, hk2⟩ := hclosed k hk
    have h1 := (h.seen_le k i (hbackc k i hk2 hi)).2 hk1
    have h2 := hwin x hx j hj
    omega
  · -- tri
    intro a i hi ha b hab
    obtain ⟨ha1, ha2⟩ := hclosed a ha
    have hi' := hbackc a i ha2 hi
    rcases h.inv.tri a i hi' ha1 b hab with ⟨hac, hb⟩ | ⟨j, hj, hji⟩
    · rw [List.map_cons, List.mem_cons] at hb
      rcases hb with hb | hb
      · right
        have hid : i = d := HasG.unique hi' (hac ▸ h.g_cur)
        exact ⟨d + 1, hb ▸ hnew, by omega⟩
      · exact Or.inl ⟨hac, hb⟩
    · exact Or.inr ⟨j, pushNode_HasG_old hg hj, hji⟩
  · -- closed_ne_end
    intro k i hi hk
    obtain ⟨hk1, hk2⟩ := hclosed k hk
    exact h.inv.closed_ne_end k i (hbackc k i hk2 hi) hk1
  · -- came
    intro k p hp
    have e : (pushNode st c nb d).cameFrom k =
        if k = getKey nb then some c else st.cameFrom k := rfl
    rw [e] at hp
    by_cases hk : k = getKey nb
    · rw [if_pos hk] at hp
      simp only [Option.some.injEq] at hp
      subst hp; subst hk
      exact ⟨d, pushNode_HasG_old hg h.g_cur, hnew, hedge⟩
    · rw [if_neg hk] at hp
      obtain ⟨i, h1, h2, h3⟩ := h.inv.came k p hp
      exact ⟨i, pushNode_HasG_old hg h1, pushNode_HasG_old hg h2, h3⟩
  · -- came_def
    intro k i hi hk
    have e : (pushNode st c nb d).cameFrom k =
        if k = getKey nb then some c else st.cameFrom k := rfl
    rw [e]
    by_cases hkn : k = getKey nb
    · exact ⟨c, by rw [if_pos hkn]⟩
    · rw [if_neg hkn]
      exact h.inv.came_def k i (hbackc k i hkn hi) hk
  · -- bounds
    intro k i hi
    rcases pushNode_HasG_inv hi with ⟨e, _⟩ | ⟨_, h2⟩
    · right; rw [e]; exact mem_getNeighbors_inBounds hnb
    · exact h.inv.bounds k i h2
  · -- depth
    intro k i hi
    rw [hmeas]
    rcases pushNode_HasG_inv hi with ⟨_, e⟩ | ⟨_, h2⟩
    · have := h.room; omega
    · exact h.inv.depth k i h2
  · -- cur_closed
    rw [pushNode_openKeys, List.mem_append, List.mem_singleton]
    rintro (h1 | h1)
    · exact h.cur_closed h1
    · exact hck h1
  · -- seen_le
    intro k i hi
    rcases pushNode_HasG_inv hi with ⟨e1, e2⟩ | ⟨hk, h2⟩
    · refine ⟨by omega, fun hk => ?_⟩
      exfalso; apply hk
      rw [pushNode_openKeys, e1]; simp
    · refine ⟨(h.seen_le k i h2).1, fun hk' => (h.seen_le k i h2).2 (hclosed k hk').1⟩

theorem Inv.not_open_of_none {mapState : MapState} {sk ek : Key} {ex : Key → Key → Prop}
    {st : SearchState} (h : Inv mapState sk ek ex st) {k : Key} (hg : st.gScore k = none) :
    k ∉ openKeys st := by
  intro hm
  obtain ⟨x, hx, hxk⟩ := List.mem_map.mp hm
  obtain ⟨n, hn⟩ := h.open_g x hx
  rw [hxk] at hn
  unfold HasG at hn
  rw [hg] at hn
  exact Option.noConfusion hn

/-- One pass of the body of the neighbour loop keeps the invariant. -/
theorem Mid.step {mapState : MapState} {sk ek : Key} {c nb : Coord} {d M : Nat}
    {todo : List Coord} {st : SearchState} (end_ : Coord) (hend : end_.s = none)
    (h : Mid mapState sk ek c d M (nb :: todo) st) :
    Mid mapState sk ek c d M todo (expandNeighbor mapState end_ c st nb) := by
  rw [expandNeighbor_eq mapState end_ c nb st d hend h.g_cur (h.inv.g_num _)
    (fun j hj => (h.seen_le _ _ hj).1) (fun hg => h.inv.not_open_of_none hg)]
  split_ifs with hc
  · exact h.push hc.1 hc.2
  · refine h.skip fun ht => ?_
    cases hg : st.gScore (getKey nb) with
    | none => exact absurd ⟨ht, hg⟩ hc
    | some v =>
      obtain ⟨n, rfl⟩ := h.inv.g_num _ v hg
      exact ⟨n, hg⟩

/-- The whole neighbour loop keeps the invariant. -/
theorem Mid.fold {mapState : MapState} {sk ek : Key} {c : Coord} {d M : Nat} (end_ : Coord)
    (hend : end_.s = none) (todo : List Coord) :
    ∀ st : SearchState, Mid mapState sk ek c d M todo st →
      Mid mapState sk ek c d M [] (todo.foldl (expandNeighbor mapState end_ c) st) := by
  induction todo with
  | nil => intro st h; exact h
  | cons nb todo ih =>
    intro st h
    rw [List.foldl_cons]
    exact ih _ (h.step end_ hend)

/-- After the neighbour loop the invariant of the head of the main loop holds again. -/
theorem Mid.done {mapState : MapState} {sk ek : Key} {c : Coord} {d M : Nat}
    {st : SearchState} (h : Mid mapState sk ek c d M [] st) :
    Inv mapState sk ek (fun _ _ => False) st ∧ measure st < M := by
  refine ⟨?_, h.meas_lt⟩
  exact
    { g_start := h.inv.g_start
      g_num := h.inv.g_num
      g_reach := h.inv.g_reach
      f_nan := h.inv.f_nan
      open_g := h.inv.open_g
      open_nodup := h.inv.open_nodup
      open_sorted := h.inv.open_sorted
      open_span := h.inv.open_span
      closed_le := h.inv.closed_le
      closed_ne_end := h.inv.closed_ne_end
      came := h.inv.came
      came_def := h.inv.came_def
      bounds := h.inv.bounds
      depth := h.inv.depth
      tri := by
        intro a i ha hcl b hab
        rcases h.inv.tri a i ha hcl b hab with ⟨_, hb⟩ | hr
        · simp at hb
        · exact Or.inr hr }

/-- Removing the head `c` of `openSet` starts the neighbour loop at `c`. -/
theorem Inv.pop {mapState : MapState} {sk ek : Key} {st : SearchState} {c : Coord}
    {rest : List Coord} {d : Nat} (h : Inv mapState sk ek (fun _ _ => False) st)
    (hopen : st.openSet = c :: rest) (hd : HasG st (getKey c) d) (hne : getKey c ≠ ek) :
    Mid mapState sk ek c d (measure st) (getNeighbors c.q c.r)
      { st with openSet := rest } := by
  have hG : ∀ k n, HasG { st with openSet := rest } k n ↔ HasG st k n := fun _ _ => Iff.rfl
  have hkeys : openKeys st = getKey c :: openKeys { st with openSet := rest } := by
    simp [openKeys, hopen]
  have hnodup := h.open_nodup
  rw [hkeys, List.nodup_cons] at hnodup
  have hsorted := h.open_sorted
  rw [hopen, List.pairwise_cons] at hsorted
  have hmem : ∀ x ∈ rest, x ∈ st.openSet := fun x hx => hopen ▸ List.mem_cons_of_mem _ hx
  have hc : c ∈ st.openSet := hopen ▸ List.mem_cons_self _ _
  have hmeas : measure { st with openSet := rest } + 1 = measure st := by
    simp [measure, unseen, hopen]; omega
  -- a node closed after the removal was closed before, or is `c`
  have hcl : ∀ k, k ∉ openKeys { st with openSet := rest } → k = getKey c ∨ k ∉ openKeys st := by
    intro k hk
    by_cases e : k = getKey c
    · exact Or.inl e
    · right; rw [hkeys, List.mem_cons]; rintro (h1 | h1)
      · exact e h1
      · exact hk h1
  exact
    { inv :=
        { g_start := h.g_start
          g_num := h.g_num
          g_reach := h.g_reach
          f_nan := h.f_nan
          open_g := fun x hx => h.open_g x (hmem x hx)
          open_nodup := hnodup.2
          open_sorted := hsorted.2
          open_span := fun x hx y hy => h.open_span x (hmem x hx) y (hmem y hy)
          closed_le := by
            intro k i hi hk x hx j hj
            rcases hcl k hk with e | hk'
            · subst e
              exact hsorted.1 x hx i j hi hj
            · exact h.closed_le k i hi hk' x (hmem x hx) j hj
          tri := by
            intro a i hi ha b hab
            rcases hcl a ha with e | ha'
            · subst e
              exact Or.inl ⟨rfl, hab.1⟩
            · rcases h.tri a i hi ha' b hab with hf | hr
              · exact hf.elim
              · exact Or.inr hr
          closed_ne_end := by
            intro k i hi hk
            rcases hcl k hk with e | hk'
            · rw [e]; exact hne
            · exact h.closed_ne_end k i hi hk'
          came := h.came
          came_def := h.came_def
          bounds := h.bounds
          depth := by
            intro k i hi
            have := h.depth k i hi
            omega }
      todo_sub := fun _ hx => hx
      g_cur := hd
      cur_closed := hnodup.1
      window := by
        intro x hx j hj
        exact ⟨hsorted.1 x hx d j hd hj, h.open_span c hc x (hmem x hx) d j hd hj⟩
      seen_le := by
        intro k i hi
        by_cases hk : k ∈ openKeys st
        · obtain ⟨x, hx, rfl⟩ := List.mem_map.mp hk
          have h1 := h.open_span c hc x hx d i hd hi
          refine ⟨h1, fun hk' => ?_⟩
          rcases hcl _ hk' with e | hk''
          · have := HasG.unique hi (e ▸ hd); omega
          · exact absurd hk hk''
        · have := h.closed_le k i hi hk c hc d hd
          exact ⟨by omega, fun _ => this⟩
      room := by
        have := h.depth _ _ hd
        omega
      meas_lt := by omega }

theorem JSNum.lt_nan_left (x : JSNum) : JSNum.lt JSNum.nan x = false := rfl

/-- With every `fScore` equal to `NaN` the comparison of the scan is never
true, so the scan keeps `(openSet[0], 0)`. -/
theorem selectLoop_nan (fScore : KeyMap JSNum) (hf : ∀ k v, fScore k = some v → v = JSNum.nan)
    (l : List Coord) : ∀ (i : Nat) (acc : Coord × Nat), selectLoop fScore l i acc = acc := by
  induction l with
  | nil => intro i acc; rfl
  | cons x xs ih =>
    intro i acc
    have hx : JSNum.ofGet (fScore (getKey x)) = JSNum.nan := by
      cases h : fScore (getKey x) with
      | none => rfl
      | some v => rw [hf _ v h]; rfl
    simp only [selectLoop, hx, JSNum.lt_nan_left, Bool.false_eq_true, if_false]
    exact ih _ _

/-- Following `cameFrom` back from a node with hop count `n` ends at the start
after `n` steps: `rp` is the list of nodes met, from the node back to the start. -/
theorem reconstruct_spec {mapState : MapState} {sk ek : Key} {ex : Key → Key → Prop}
    {st : SearchState} (h : Inv mapState sk ek ex st) :
    ∀ (n : Nat) (x : Coord) (acc : List Coord) (fuel : Nat), HasG st (getKey x) n →
      n + 2 ≤ fuel →
      ∃ rp : List Coord, reconstruct st.cameFrom fuel (some x) acc = some (rp.reverse ++ acc) ∧
        rp.length = n + 1 ∧ rp.head? = some x ∧ (rp.map getKey).getLast? = some sk ∧
        List.Chain' (fun a b => Edge mapState b a) (rp.map getKey) := by
  intro n
  induction n with
  | zero =>
    intro x acc fuel hx hfuel
    have hnone : st.cameFrom (getKey x) = none := by
      cases hc : st.cameFrom (getKey x) with
      | none => rfl
      | some p =>
        obtain ⟨i, _, h2, _⟩ := h.came _ p hc
        have := HasG.unique hx h2
        omega
    have hsk : getKey x = sk := by
      by_contra hne
      obtain ⟨p, hp⟩ := h.came_def _ 0 hx hne
      rw [hnone] at hp
      exact Option.noConfusion hp
    obtain ⟨f, rfl⟩ : ∃ f, fuel = f + 2 := ⟨fuel - 2, by omega⟩
    refine ⟨[x], ?_, rfl, rfl, by simp [hsk], by simp⟩
    simp [reconstruct, hnone]
  | succ n ih =>
    intro x acc fuel hx hfuel
    have hne : getKey x ≠ sk := by
      intro e
      have := HasG.unique hx (e ▸ h.g_start)
      omega
    obtain ⟨p, hp⟩ := h.came_def _ _ hx hne
    obtain ⟨i, h1, h2, h3⟩ := h.came _ p hp
    have hi : i = n := by have := HasG.unique hx h2; omega
    subst hi
    obtain ⟨f, rfl⟩ : ∃ f, fuel = f + 1 := ⟨fuel - 1, by omega⟩
    obtain ⟨rp, hr, hlen, hhead, hlast, hchain⟩ := ih p (x :: acc) f h1 (by omega)
    obtain ⟨t, rfl⟩ : ∃ t, rp = p :: t := by
      cases rp with
      | nil => simp at hhead
      | cons a t => simp at hhead; exact ⟨t, by rw [hhead]⟩
    refine ⟨x :: p :: t, ?_, by simp at hlen ⊢; omega, rfl, ?_, ?_⟩
    · simp only [reconstruct, hp, hr]
      simp
    · simpa using hlast
    · simp only [List.map_cons] at hchain ⊢
      exact List.Chain'.cons h3 hchain

/-- At the head of the loop, with `c` first in `openSet` at hop count `d`: a
key reached by a walk of `n` edges has a hop count of at most `n`, or `d ≤ n`. -/
theorem Inv.reach_bound {mapState : MapState} {sk ek : Key} {st : SearchState} {c : Coord}
    {rest : List Coord} {d : Nat} (h : Inv mapState sk ek (fun _ _ => False) st)
    (hopen : st.openSet = c :: rest) (hd : HasG st (getKey c) d) {n : Nat} {k : Key}
    (hr : Reach mapState sk n k) : (∃ j, HasG st k j ∧ j ≤ n) ∨ d ≤ n := by
  induction hr with
  | start => exact Or.inl ⟨0, h.g_start, le_rfl⟩
  | @step n a b _ hab ih =>
    rcases ih with ⟨j, hj, hjn⟩ | hdn
    · by_cases ha : a ∈ openKeys st
      · right
        obtain ⟨x, hx, rfl⟩ := List.mem_map.mp ha
        have hsorted := h.open_sorted
        rw [hopen, List.pairwise_cons] at hsorted
        rw [hopen, List.mem_cons] at hx
        rcases hx with e | hx
        · subst e
          have := HasG.unique hj hd
          omega
        · have := hsorted.1 x hx d j hd hj
          omega
      · rcases h.tri a j hj ha b hab with hf | ⟨j', hj', hle⟩
        · exact hf.elim
        · exact Or.inl ⟨j', hj', by omega⟩
    · exact Or.inr (by omega)

/-- Once `openSet` is empty every key that a walk reaches has a hop count. -/
theorem Inv.reach_seen {mapState : MapState} {sk ek : Key} {st : SearchState}
    (h : Inv mapState sk ek (fun _ _ => False) st) (hopen : st.openSet = []) {n : Nat} {k : Key}
    (hr : Reach mapState sk n k) : ∃ j, HasG st k j := by
  induction hr with
  | start => exact ⟨0, h.g_start⟩
  | @step n a b _ hab ih =>
    obtain ⟨j, hj⟩ := ih
    have ha : a ∉ openKeys st := by simp [openKeys, hopen]
    rcases h.tri a j hj ha b hab with hf | ⟨j', hj', _⟩
    · exact hf.elim
    · exact ⟨j', hj'⟩

/-- The main loop, started in a state that satisfies the invariant with enough
fuel, returns, and what it returns is a shortest path or the empty path. -/
theorem searchLoop_spec (mapState : MapState) (sk : Key) (end_ : Coord) (hend : end_.s = none) :
    ∀ (fuel : Nat) (st : SearchState), Inv mapState sk (getKey end_) (fun _ _ => False) st →
      measure st < fuel →
      ∃ path, searchLoop mapState end_ fuel st = some path ∧
        SearchResult mapState sk (getKey end_) path := by
  intro fuel
  induction fuel with
  | zero => intro st _ hm; omega
  | succ fuel ih =>
    intro st h hm
    cases hopen : st.openSet with
    | nil =>
      refine ⟨[], by simp [searchLoop, hopen], Or.inl ⟨rfl, fun n hr => ?_⟩⟩
      obtain ⟨j, hj⟩ := h.reach_seen hopen hr
      exact h.closed_ne_end _ j hj (by simp [openKeys, hopen]) rfl
    | cons c rest =>
      have hsel : selectLoop st.fScore rest 1 (c, 0) = (c, 0) := selectLoop_nan _ h.f_nan _ _ _
      have hc : c ∈ st.openSet := hopen ▸ List.mem_cons_self _ _
      obtain ⟨d, hd⟩ := h.open_g c hc
      by_cases hgoal : c.q = end_.q ∧ c.r = end_.r
      · have hkey : getKey c = getKey end_ := by simp [getKey, hgoal.1, hgoal.2]
        have hdepth := h.depth _ _ hd
        have hpos : 1 ≤ measure st := by simp only [measure, hopen, List.length_cons]; omega
        obtain ⟨rp, hr, hlen, hhead, hlast, hchain⟩ :=
          reconstruct_spec h d c [] searchFuel hd (by unfold searchFuel; omega)
        refine ⟨rp.reverse, ?_, Or.inr ⟨d, by simpa using hlen, ⟨?_, ?_, ?_⟩, ?_, ?_⟩⟩
        · simp only [searchLoop, hopen, hsel, hgoal, and_self, if_true]
          simpa using hr
        · rw [List.map_reverse, List.head?_reverse]; exact hlast
        · rw [List.map_reverse, List.getLast?_reverse, List.head?_map, hhead]
          simp [hkey]
        · rw [List.map_reverse, List.chain'_reverse]
          exact hchain
        · exact hkey ▸ h.g_reach _ _ hd
        · intro n hn
          rcases h.reach_bound hopen hd hn with ⟨j, hj, hjn⟩ | hdn
          · have := HasG.unique hj (hkey ▸ hd)
            omega
          · exact hdn
      · have hkey : getKey c ≠ getKey end_ := by
          intro e
          simp only [getKey, Prod.mk.injEq] at e
          exact hgoal e
        have hmid := h.pop hopen hd hkey
        obtain ⟨hinv, hlt⟩ := (Mid.fold end_ hend _ _ hmid).done
        obtain ⟨path, hp, hres⟩ := ih _ hinv (by omega)
        refine ⟨path, ?_, hres⟩
        simp only [searchLoop, hopen, hsel, hgoal, if_false, List.eraseIdx_cons_zero]
        exact hp

theorem initialSearch_inv (mapState : MapState) (start end_ : Coord) (hend : end_.s = none) :
    Inv mapState (getKey start) (getKey end_) (fun _ _ => False) (initialSearch start end_) ∧
      measure (initialSearch start end_) < searchFuel := by
  have hg : ∀ k, (initialSearch start end_).gScore k =
      if k = getKey start then some (JSNum.num 0) else none := fun _ => rfl
  have hG : ∀ k n, HasG (initialSearch start end_) k n → k = getKey start ∧ n = 0 := by
    intro k n hn
    unfold HasG at hn
    rw [hg] at hn
    by_cases hk : k = getKey start
    · rw [if_pos hk] at hn
      simp only [Option.some.injEq, JSNum.num.injEq] at hn
      exact ⟨hk, by omega⟩
    · rw [if_neg hk] at hn
      exact Option.noConfusion hn
  have h0 : HasG (initialSearch start end_) (getKey start) 0 := by
    unfold HasG; rw [hg, if_pos rfl]; rfl
  have hkeys : openKeys (initialSearch start end_) = [getKey start] := rfl
  have hmeas : measure (initialSearch start end_) ≤ hexCoords.length + 1 := by
    unfold measure unseen
    have h1 := List.countP_le_length (fun k => ((initialSearch start end_).gScore k).isNone)
      (l := hexCoords.map getKey)
    have h2 : (initialSearch start end_).openSet.length = 1 := rfl
    rw [List.length_map] at h1
    omega
  refine ⟨?_, by unfold searchFuel; omega⟩
  exact
    { g_start := h0
      g_num := by
        intro k v hv
        rw [hg] at hv
        by_cases hk : k = getKey start
        · rw [if_pos hk] at hv
          exact ⟨0, by simp at hv; rw [← hv]; rfl⟩
        · rw [if_neg hk] at hv
          exact Option.noConfusion hv
      g_reach := by
        intro k n hn
        obtain ⟨rfl, rfl⟩ := hG k n hn
        exact Reach.start
      f_nan := by
        intro k v hv
        have hf : (initialSearch start end_).fScore k =
            if k = getKey start then some (hexDistance start end_) else none := rfl
        rw [hf] at hv
        by_cases hk : k = getKey start
        · rw [if_pos hk] at hv
          have e : end_ = { q := end_.q, r := end_.r, s := none } := by cases end_; simp_all
          rw [e, hexDistance_no_s] at hv
          simp at hv
          exact hv.symm
        · rw [if_neg hk] at hv
          exact Option.noConfusion hv
      open_g := by
        intro x hx
        have : x = start := by simpa [initialSearch] using hx
        exact ⟨0, this ▸ h0⟩
      open_nodup := by rw [hkeys]; exact List.nodup_singleton _
      open_sorted := List.pairwise_singleton _ _
      open_span := by
        intro x _ y _ i j hi hj
        have := (hG _ _ hi).2
        have := (hG _ _ hj).2
        omega
      closed_le := by
        intro k i hi hk
        exact absurd (by rw [hkeys, (hG _ _ hi).1]; simp) hk
      tri := by
        intro a i hi ha
        exact absurd (by rw [hkeys, (hG _ _ hi).1]; simp) ha
      closed_ne_end := by
        intro k i hi hk
        exact absurd (by rw [hkeys, (hG _ _ hi).1]; simp) hk
      came := by
        intro k p hp
        exact Option.noConfusion hp
      came_def := by
        intro k i hi hk
        exact absurd (hG _ _ hi).1 hk
      bounds := fun k i hi => Or.inl (hG _ _ hi).1
      depth := by
        intro k i hi
        have := (hG _ _ hi).2
        omega }

/-- `findPath` always returns: the empty path when the end cell is not
traversable, and otherwise the result of the search. -/
theorem findPath_spec (mapState : MapState) (startQ startR endQ endR : Int) :
    ∃ path, findPath mapState startQ startR endQ endR = some path ∧
      ((isTraversable mapState endQ endR = false ∧ path = []) ∨
        (isTraversable mapState endQ endR = true ∧
          SearchResult mapState (startQ, startR) (endQ, endR) path)) := by
  unfold findPath
  by_cases ht : isTraversable mapState endQ endR = true
  · obtain ⟨hinv, hm⟩ := initialSearch_inv mapState { q := startQ, r := startR, s := none }
      { q := endQ, r := endR, s := none } rfl
    obtain ⟨path, hp, hres⟩ := searchLoop_spec mapState (startQ, startR)
      { q := endQ, r := endR, s := none } rfl searchFuel _ hinv hm
    refine ⟨path, ?_, Or.inr ⟨ht, hres⟩⟩
    simp only [ht, Bool.not_true, Bool.false_eq_true, if_false]
    exact hp
  · have hf : isTraversable mapState endQ endR = false := by simpa using ht
    exact ⟨[], by simp [hf], Or.inl ⟨hf, rfl⟩⟩

/-! ## Routes and hex distance -/

theorem hexAdjacent_iff (a b : Key) :
    hexAdjacent a b ↔ (b.1 - a.1, b.2 - a.2) ∈ directions := by
  simp only [hexAdjacent, hexDist, jsAbs, directions, List.mem_cons, Prod.mk.injEq,
    List.mem_singleton, List.not_mem_nil, or_false]
  constructor
  · intro h; split_ifs at h <;> omega
  · intro h; split_ifs <;> omega

/-- An edge joins `a` to `b` exactly when `b` is adjacent to `a`, within the
radius, and traversable. -/
theorem edge_iff (mapState : MapState) (a b : Key) :
    Edge mapState a b ↔
      hexAdjacent a b ∧ inBounds b ∧ isTraversable mapState b.1 b.2 = true := by
  unfold Edge
  constructor
  · rintro ⟨hmem, ht⟩
    obtain ⟨c, hc, rfl⟩ := List.mem_map.mp hmem
    obtain ⟨hd, _, h1, h2, h3⟩ := mem_getNeighbors hc
    exact ⟨(hexAdjacent_iff _ _).mpr hd, ⟨h1, h2, h3⟩, ht⟩
  · rintro ⟨hadj, hb, ht⟩
    refine ⟨?_, ht⟩
    rw [List.mem_map]
    refine ⟨{ q := b.1, r := b.2, s := some (-b.1 - b.2) }, ?_, rfl⟩
    unfold getNeighbors
    rw [List.mem_filter, List.mem_map]
    refine ⟨⟨(b.1 - a.1, b.2 - a.2), (hexAdjacent_iff _ _).mp hadj, ?_⟩, ?_⟩
    · simp
    · simp only [Bool.and_eq_true, decide_eq_true_eq]
      exact ⟨⟨hb.1, hb.2.1⟩, hb.2.2⟩

theorem Reach.cons {mapState : MapState} {a b : Key} (hab : Edge mapState a b) :
    ∀ {n : Nat} {e : Key}, Reach mapState b n e → Reach mapState a (n + 1) e := by
  intro n e h
  induction h with
  | start => exact Reach.step Reach.start hab
  | step _ hxy ih => exact Reach.step ih hxy

/-- A route gives a walk of the search graph with one edge less than it has keys. -/
theorem Route.reach {mapState : MapState} {e : Key} :
    ∀ {seq : List Key} {s : Key}, Route mapState s e seq →
      Reach mapState s (seq.length - 1) e := by
  intro seq
  induction seq with
  | nil => intro s h; simp [Route] at h
  | cons a t ih =>
    intro s h
    obtain ⟨hhead, hlast, hb, hchain, htrav⟩ := h
    have has : a = s := by simpa using hhead
    subst has
    cases t with
    | nil =>
      have : a = e := by simpa using hlast
      subst this
      exact Reach.start
    | cons b t' =>
      have hr : Route mapState b e (b :: t') := by
        refine ⟨rfl, ?_, fun k hk => hb k (List.mem_cons_of_mem _ hk), ?_, ?_⟩
        · simpa using hlast
        · exact (List.chain'_cons.mp hchain).2
        · intro k hk
          exact htrav k (by simp only [List.tail_cons] at hk ⊢; exact List.mem_cons_of_mem _ hk)
      have hedge : Edge mapState a b := by
        rw [edge_iff]
        exact ⟨(List.chain'_cons.mp hchain).1, hb b (by simp), htrav b (by simp)⟩
      have := Reach.cons hedge (ih hr)
      simpa using this

/-- A walk from a key within the radius gives a route with one key more than it has edges. -/
theorem Reach.toRoute {mapState : MapState} {s : Key} (hs : inBounds s) {n : Nat} {k : Key}
    (h : Reach mapState s n k) : ∃ seq, Route mapState s k seq ∧ seq.length = n + 1 := by
  induction h with
  | start =>
    refine ⟨[s], ⟨rfl, rfl, ?_, by simp, by simp⟩, rfl⟩
    intro k hk
    rw [List.mem_singleton] at hk
    exact hk ▸ hs
  | @step n a b _ hab ih =>
    obtain ⟨seq, ⟨hhead, hlast, hb, hchain, htrav⟩, hlen⟩ := ih
    obtain ⟨hadj, hbb, hbt⟩ := (edge_iff _ _ _).mp hab
    have hne : seq ≠ [] := by intro e; simp [e] at hlen
    refine ⟨seq ++ [b], ⟨?_, ?_, ?_, ?_, ?_⟩, by simp [hlen]⟩
    · rw [List.head?_append_of_ne_nil _ hne]; exact hhead
    · simp
    · intro k hk
      rw [List.mem_append, List.mem_singleton] at hk
      rcases hk with hk | hk
      · exact hb k hk
      · exact hk ▸ hbb
    · rw [List.chain'_append]
      refine ⟨hchain, by simp, ?_⟩
      intro x hx y hy
      rw [hlast] at hx
      simp only [Option.mem_def, Option.some.injEq, List.head?_cons] at hx hy
      subst hx; subst hy
      exact hadj
    · intro k hk
      rw [List.tail_append_of_ne_nil hne, List.mem_append, List.mem_singleton] at hk
      rcases hk with hk | hk
      · exact htrav k hk
      · exact hk ▸ hbt

/-- The keys of a path returned by the search, from a start within the radius, form a route. -/
theorem GoodPath.keysRoute {mapState : MapState} {sk ek : Key} {path : List Coord}
    (hs : inBounds sk) (h : GoodPath mapState sk ek path) :
    Route mapState sk ek (path.map getKey) := by
  obtain ⟨hhead, hlast, hchain⟩ := h
  have key : ∀ l : List Key, List.Chain' (Edge mapState) l →
      ∀ k ∈ l.tail, inBounds k ∧ isTraversable mapState k.1 k.2 = true := by
    intro l
    induction l with
    | nil => intro _ k hk; simp at hk
    | cons a t ih =>
      intro hc k hk
      cases t with
      | nil => simp at hk
      | cons b t' =>
        rw [List.chain'_cons] at hc
        simp only [List.tail_cons, List.mem_cons] at hk
        rcases hk with hk | hk
        · subst hk
          exact ((edge_iff _ _ _).mp hc.1).2
        · exact ih hc.2 k (by simpa using hk)
  refine ⟨hhead, hlast, ?_, ?_, fun k hk => (key _ hchain k hk).2⟩
  · intro k hk
    cases hl : path.map getKey with
    | nil => rw [hl] at hk; simp at hk
    | cons a t =>
      rw [hl] at hk hhead
      have hak : a = sk := by simpa using hhead
      rcases List.mem_cons.mp hk with e | e
      · rw [e, hak]; exact hs
      · exact (key _ hchain k (by rw [hl]; exact e)).1
  · exact List.Chain'.imp (fun a b hab => ((edge_iff _ _ _).mp hab).1) hchain

theorem jsAbs_le_iff (x n : Int) : jsAbs x ≤ n ↔ -n ≤ x ∧ x ≤ n := by
  unfold jsAbs; split_ifs <;> omega

theorem hexDist_le_iff (a b : Key) (n : Int) :
    hexDist a b ≤ n ↔
      (-n ≤ a.1 - b.1 ∧ a.1 - b.1 ≤ n) ∧ (-n ≤ a.2 - b.2 ∧ a.2 - b.2 ≤ n) ∧
        (-n ≤ (-a.1 - a.2) - (-b.1 - b.2) ∧ (-a.1 - a.2) - (-b.1 - b.2) ≤ n) := by
  simp only [hexDist, max_le_iff, jsAbs_le_iff, and_assoc]

theorem inBounds_iff (k : Key) :
    inBounds k ↔ (-MAP_RADIUS ≤ k.1 ∧ k.1 ≤ MAP_RADIUS) ∧ (-MAP_RADIUS ≤ k.2 ∧ k.2 ≤ MAP_RADIUS) ∧
      (-MAP_RADIUS ≤ -k.1 - k.2 ∧ -k.1 - k.2 ≤ MAP_RADIUS) := by
  simp only [inBounds, jsAbs_le_iff]

theorem hexDist_nonneg (a b : Key) : 0 ≤ hexDist a b := by
  by_contra h
  have h1 : hexDist a b ≤ -1 := by omega
  rw [hexDist_le_iff] at h1
  omega

theorem hexDist_self (a : Key) : hexDist a a = 0 := by
  have h1 : hexDist a a ≤ 0 := by rw [hexDist_le_iff]; omega
  have h2 := hexDist_nonneg a a
  omega

theorem hexDist_eq_zero {a b : Key} (h : hexDist a b = 0) : a = b := by
  have h1 : hexDist a b ≤ 0 := by omega
  rw [hexDist_le_iff] at h1
  ext <;> omega

theorem hexDist_triangle_adj {s a b : Key} (h : hexAdjacent a b) :
    hexDist s b ≤ hexDist s a + 1 := by
  have h1 : hexDist a b ≤ 1 := by unfold hexAdjacent at h; omega
  have h2 : hexDist s a ≤ hexDist s a := le_rfl
  rw [hexDist_le_iff] at h1 h2 ⊢
  omega

/-- A walk of `n` edges ends at hex distance at most `n` from its start. -/
theorem Reach.hexDist_le {mapState : MapState} {s : Key} {n : Nat} {k : Key}
    (h : Reach mapState s n k) : hexDist s k ≤ n := by
  induction h with
  | start => rw [hexDist_self]; rfl
  | @step n a b _ hab ih =>
    have := hexDist_triangle_adj (s := s) ((edge_iff _ _ _).mp hab).1
    push_cast
    omega

theorem hexAdjacent_of_offset {a e : Key} (h : (e.1 - a.1, e.2 - a.2) ∈ directions) :
    hexAdjacent a e := (hexAdjacent_iff a e).mpr h

/-- From a key `e` within the radius, other than `s`, one step towards `s`
stays within the radius and comes one closer. -/
theorem step_toward {s e : Key} (hs : inBounds s) (he : inBounds e) (hne : 0 < hexDist s e) :
    ∃ a, inBounds a ∧ hexAdjacent a e ∧ hexDist s a = hexDist s e - 1 := by
  have hD : hexDist s e ≤ hexDist s e := le_rfl
  rw [hexDist_le_iff] at hD
  have hnz : s ≠ e := by
    intro h; rw [h, hexDist_self] at hne; omega
  have hnz' : s.1 ≠ e.1 ∨ s.2 ≠ e.2 := by
    by_contra hc
    push_neg at hc
    exact hnz (Prod.ext hc.1 hc.2)
  rw [inBounds_iff] at hs he
  -- it is enough to find an adjacent key within the radius at distance at most `D - 1`
  suffices hsuff : ∃ a, inBounds a ∧ hexAdjacent a e ∧ hexDist s a ≤ hexDist s e - 1 by
    obtain ⟨a, ha, hadj, hle⟩ := hsuff
    have := hexDist_triangle_adj (s := s) hadj
    exact ⟨a, ha, hadj, by omega⟩
  generalize hexDist s e = D at hD hne ⊢
  obtain ⟨sq, sr⟩ := s
  obtain ⟨eq, er⟩ := e
  simp only at hD hs he hnz'
  by_cases h1 : eq < sq
  · by_cases h2 : sr < er
    · refine ⟨(eq + 1, er - 1), ?_, hexAdjacent_of_offset ?_, ?_⟩
      · rw [inBounds_iff]; dsimp only; omega
      · simp [directions]
      · rw [hexDist_le_iff]; dsimp only; omega
    · refine ⟨(eq + 1, er), ?_, hexAdjacent_of_offset ?_, ?_⟩
      · rw [inBounds_iff]; dsimp only; omega
      · simp [directions]
      · rw [hexDist_le_iff]; dsimp only; omega
  · by_cases h3 : sq < eq
    · by_cases h4 : er < sr
      · refine ⟨(eq - 1, er + 1), ?_, hexAdjacent_of_offset ?_, ?_⟩
        · rw [inBounds_iff]; dsimp only; omega
        · simp [directions]
        · rw [hexDist_le_iff]; dsimp only; omega
      · refine ⟨(eq - 1, er), ?_, hexAdjacent_of_offset ?_, ?_⟩
        · rw [inBounds_iff]; dsimp only; omega
        · simp [directions]
        · rw [hexDist_le_iff]; dsimp only; omega
    · by_cases h5 : er < sr
      · refine ⟨(eq, er + 1), ?_, hexAdjacent_of_offset ?_, ?_⟩
        · rw [inBounds_iff]; dsimp only; omega
        · simp [directions]
        · rw [hexDist_le_iff]; dsimp only; omega
      · refine ⟨(eq, er - 1), ?_, hexAdjacent_of_offset ?_, ?_⟩
        · rw [inBounds_iff]; dsimp only; omega
        · simp [directions]
        · rw [hexDist_le_iff]; dsimp only; omega

/-- On a map without impassable cells every key within the radius is reached
by a walk of exactly the hex distance. -/
theorem reach_of_open {mapState : MapState} (hopen : ∀ k : Key, isTraversable mapState k.1 k.2 = true)
    {s : Key} (hs : inBounds s) :
    ∀ (n : Nat) (e : Key), inBounds e → hexDist s e = n → Reach mapState s n e := by
  intro n
  induction n with
  | zero =>
    intro e _ h
    have := hexDist_eq_zero (by simpa using h)
    subst this
    exact Reach.start
  | succ n ih =>
    intro e he h
    obtain ⟨a, ha, hadj, hd⟩ := step_toward hs he (by rw [h]; push_cast; omega)
    have hr := ih a ha (by rw [hd, h]; push_cast; omega)
    exact Reach.step hr ((edge_iff _ _ _).mpr ⟨hadj, he, hopen e⟩)

theorem traversable_iff (mapState : MapState) (q r : Int) :
    isTraversable mapState q r = true ↔
      mapState (q, r) ≠ some "mountain" ∧ mapState (q, r) ≠ some "lake" := by
  simp [isTraversable, bne_iff_ne]

theorem hexDist_comm (a b : Key) : hexDist a b = hexDist b a := by
  have h1 : hexDist a b ≤ hexDist b a := by
    have h := le_refl (hexDist b a)
    rw [hexDist_le_iff] at h ⊢
    omega
  have h2 : hexDist b a ≤ hexDist a b := by
    have h := le_refl (hexDist a b)
    rw [hexDist_le_iff] at h ⊢
    omega
  omega

/-! ## findPath: optimality, well-formedness, unreachable ends -/

/-- C1 as stated fails. On the initial map with `(1, 0)` edited to `mountain`,
the one-element sequence `[(1, 0)]` is a route from `(1, 0)` to `(1, 0)` (it has
no element after the first), and `findPath(1, 0, 1, 0)` returns the empty path. -/
theorem findPath_empty_on_blocked_start :
    inBounds (1, 0) ∧ Route blockedCellMap (1, 0) (1, 0) [(1, 0)] ∧
      findPath blockedCellMap 1 0 1 0 = some [] := by
  refine ⟨by decide, ?_, ?_⟩
  · refine ⟨rfl, rfl, ?_, by simp, by simp⟩
    intro k hk
    rw [List.mem_singleton] at hk
    rw [hk]; decide
  · have ht : isTraversable blockedCellMap 1 0 = false := by
      simp [isTraversable, blockedCellMap, KeyMap.set]
    simp [findPath, ht]

/-- C1, amended. For every map state and every start within the radius, if
the end cell is traversable and some route leads from start to end (keys within
the radius, consecutive keys hex-adjacent, every key after the first
traversable), then `findPath` returns a non-empty path whose keys form such a
route and whose number of elements is at most that of every such route. -/
theorem findPath_optimal (mapState : MapState) (startQ startR endQ endR : Int)
    (hs : inBounds (startQ, startR)) (ht : isTraversable mapState endQ endR = true)
    (seq : List Key) (hseq : Route mapState (startQ, startR) (endQ, endR) seq) :
    ∃ path, findPath mapState startQ startR endQ endR = some path ∧ path ≠ [] ∧
      Route mapState (startQ, startR) (endQ, endR) (path.map getKey) ∧
      ∀ seq', Route mapState (startQ, startR) (endQ, endR) seq' → path.length ≤ seq'.length := by
  obtain ⟨path, hp, hres⟩ := findPath_spec mapState startQ startR endQ endR
  refine ⟨path, hp, ?_⟩
  rcases hres with ⟨hf, _⟩ | ⟨_, hres⟩
  · rw [ht] at hf; exact Bool.noConfusion hf
  · rcases hres with ⟨_, hno⟩ | ⟨d, hlen, hgood, _, hmin⟩
    · exact absurd hseq.reach (hno _)
    · refine ⟨?_, hgood.keysRoute hs, ?_⟩
      · intro e; rw [e] at hlen; simp at hlen
      · intro seq' hseq'
        have h1 := hmin _ hseq'.reach
        have h2 : seq' ≠ [] := by
          intro e; have := hseq'.1; rw [e] at this; simp at this
        have h3 : 0 < seq'.length := List.length_pos.mpr h2
        omega

/-- The example scenario: with `(1, 0)` set to `mountain` and `(1, -1)` set to
`field`, the route `(0,0), (1,-1), (2,-1)` exists, and `findPath(0, 0, 2, -1)`
returns three coordinates, none of them `(1, 0)`. -/
theorem findPath_optimal_witness :
    Route scenarioMap (0, 0) (2, -1) [(0, 0), (1, -1), (2, -1)] ∧
    (∃ path, findPath scenarioMap 0 0 2 (-1) = some path ∧ path ≠ [] ∧
      Route scenarioMap (0, 0) (2, -1) (path.map getKey) ∧
      ∀ seq', Route scenarioMap (0, 0) (2, -1) seq' → path.length ≤ seq'.length) ∧
    findPath scenarioMap 0 0 2 (-1) =
      some [{ q := 0, r := 0, s := none }, { q := 1, r := -1, s := some 0 },
        { q := 2, r := -1, s := some (-1) }] := by
  have ht : isTraversable scenarioMap 2 (-1) = true := by decide!
  have hr : Route scenarioMap (0, 0) (2, -1) [(0, 0), (1, -1), (2, -1)] := by
    refine ⟨rfl, rfl, by decide, ?_, by decide!⟩
    simp only [List.chain'_cons, List.chain'_singleton, and_true]
    decide
  exact ⟨hr, findPath_optimal scenarioMap 0 0 2 (-1) (by decide) ht _ hr, by decide!⟩

/-- C2. On a map state in which no cell is `mountain` or `lake`, for every
start and end within the radius (also when they are equal) `findPath` returns
a path of exactly `hexDist start end + 1` coordinates in which every
consecutive pair is hex-adjacent. -/
theorem findPath_open_map (mapState : MapState)
    (hopen : ∀ k : Key, mapState k ≠ some "mountain" ∧ mapState k ≠ some "lake")
    (startQ startR endQ endR : Int) (hs : inBounds (startQ, startR))
    (he : inBounds (endQ, endR)) :
    ∃ path, findPath mapState startQ startR endQ endR = some path ∧
      (path.length : Int) = hexDist (startQ, startR) (endQ, endR) + 1 ∧
      List.Chain' hexAdjacent (path.map getKey) := by
  have htrav : ∀ k : Key, isTraversable mapState k.1 k.2 = true :=
    fun k => (traversable_iff _ _ _).mpr (hopen k)
  have hnn := hexDist_nonneg (startQ, startR) (endQ, endR)
  have hreach := reach_of_open htrav hs (hexDist (startQ, startR) (endQ, endR)).toNat
    (endQ, endR) he (by omega)
  obtain ⟨path, hp, hres⟩ := findPath_spec mapState startQ startR endQ endR
  refine ⟨path, hp, ?_⟩
  rcases hres with ⟨hf, _⟩ | ⟨_, hres⟩
  · rw [htrav (endQ, endR)] at hf; exact Bool.noConfusion hf
  · rcases hres with ⟨_, hno⟩ | ⟨d, hlen, hgood, hd, hmin⟩
    · exact absurd hreach (hno _)
    · have h1 := hmin _ hreach
      have h2 := hd.hexDist_le
      refine ⟨by rw [hlen]; push_cast; omega, (hgood.keysRoute hs).2.2.2.1⟩

/-- The initial map has no impassable cell: from the camp to the corner
`(16, -16)` the path has 17 coordinates. -/
theorem findPath_open_map_witness :
    ∃ path, findPath initialState 0 0 16 (-16) = some path ∧
      (path.length : Int) = hexDist (0, 0) (16, -16) + 1 ∧
      List.Chain' hexAdjacent (path.map getKey) :=
  findPath_open_map initialState
    (fun k => by
      rw [initialState_apply]
      by_cases hb : inBounds k
      · rw [if_pos hb]
        by_cases h0 : k = (0, 0)
        · rw [if_pos h0]; exact ⟨by decide, by decide⟩
        · rw [if_neg h0]; exact ⟨by decide, by decide⟩
      · rw [if_neg hb]; exact ⟨by simp, by simp⟩)
    0 0 16 (-16) (by decide) (by decide)

/-- C3. For every map state and every start within the radius, a non-empty
path returned by `findPath` starts at the key of start, ends at the key of
end, has every consecutive pair at hex distance exactly 1, lies within the
radius, and every element after the first is traversable; when the start cell
is `camp`, no element of the path is `mountain` or `lake`. -/
theorem findPath_wellformed (mapState : MapState) (startQ startR endQ endR : Int)
    (hs : inBounds (startQ, startR)) (path : List Coord)
    (hp : findPath mapState startQ startR endQ endR = some path) (hne : path ≠ []) :
    Route mapState (startQ, startR) (endQ, endR) (path.map getKey) ∧
      (mapState (startQ, startR) = some "camp" →
        ∀ c ∈ path, mapState (c.q, c.r) ≠ some "mountain" ∧ mapState (c.q, c.r) ≠ some "lake") := by
  obtain ⟨path', hp', hres⟩ := findPath_spec mapState startQ startR endQ endR
  rw [hp] at hp'
  have e : path = path' := by simpa using hp'
  subst e
  have hroute : Route mapState (startQ, startR) (endQ, endR) (path.map getKey) := by
    rcases hres with ⟨_, hnil⟩ | ⟨_, hres⟩
    · exact absurd hnil hne
    · rcases hres with ⟨hnil, _⟩ | ⟨d, _, hgood, _, _⟩
      · exact absurd hnil hne
      · exact hgood.keysRoute hs
  refine ⟨hroute, fun hcamp c hc => ?_⟩
  obtain ⟨hhead, _, _, _, htrav⟩ := hroute
  cases hpath : path with
  | nil => exact absurd hpath hne
  | cons a t =>
    rw [hpath] at hhead htrav hc
    simp only [List.map_cons, List.head?_cons, Option.some.injEq, List.tail_cons] at hhead htrav
    rcases List.mem_cons.mp hc with e | e
    · have hk : (c.q, c.r) = (startQ, startR) := by rw [e]; exact hhead
      rw [hk, hcamp]
      exact ⟨by decide, by decide⟩
    · exact (traversable_iff _ _ _).mp (htrav (getKey c) (List.mem_map_of_mem _ e))

/-- The route of the example scenario, from the camp. -/
theorem findPath_wellformed_witness :
    Route scenarioMap (0, 0) (2, -1)
        ([{ q := 0, r := 0, s := none }, { q := 1, r := -1, s := some 0 },
          { q := 2, r := -1, s := some (-1) }].map getKey) ∧
      (scenarioMap (0, 0) = some "camp" →
        ∀ c ∈ ([{ q := 0, r := 0, s := none }, { q := 1, r := -1, s := some 0 },
            { q := 2, r := -1, s := some (-1) }] : List Coord),
          scenarioMap (c.q, c.r) ≠ some "mountain" ∧ scenarioMap (c.q, c.r) ≠ some "lake") :=
  findPath_wellformed scenarioMap 0 0 2 (-1) (by decide) _ (by decide!) (by simp)

/-- A walk ends at its start or at a key within the radius that is traversable. -/
theorem Reach.end_cases {mapState : MapState} {s : Key} {n : Nat} {k : Key}
    (h : Reach mapState s n k) :
    (n = 0 ∧ k = s) ∨ (inBounds k ∧ isTraversable mapState k.1 k.2 = true) := by
  cases h with
  | start => exact Or.inl ⟨rfl, rfl⟩
  | step _ hab => exact Or.inr ((edge_iff _ _ _).mp hab).2

/-- No walk reaches a key whose neighbours are all impassable from a start at
hex distance more than 1. -/
theorem no_reach_of_ring {mapState : MapState} {s e : Key} (hfar : 1 < hexDist s e)
    (hring : ∀ c ∈ getNeighbors e.1 e.2, isTraversable mapState c.q c.r = false) :
    ∀ n, ¬ Reach mapState s n e := by
  intro n h
  cases h with
  | start => rw [hexDist_self] at hfar; omega
  | @step m a _ ha hab =>
    have hadj := ((edge_iff _ _ _).mp hab).1
    rcases ha.end_cases with ⟨_, rfl⟩ | ⟨hb, ht⟩
    · unfold hexAdjacent at hadj; omega
    · have hback : Edge mapState e a := by
        rw [edge_iff]
        refine ⟨?_, hb, ht⟩
        unfold hexAdjacent at hadj ⊢
        rw [hexDist_comm]; exact hadj
      obtain ⟨c, hc, rfl⟩ := List.mem_map.mp hback.1
      have := hring c hc
      rw [show isTraversable mapState c.q c.r = isTraversable mapState (getKey c).1 (getKey c).2
        from rfl, ht] at this
      exact Bool.noConfusion this

/-- C4. For every map state and every start within the radius, `findPath`
returns the empty path (a) whenever the end cell is `mountain` or `lake`, also
when end = start, (b) whenever the end cell is traversable and no route leads
from start to end, and in particular when every neighbour of end is
impassable and start is at hex distance more than 1 from end. -/
theorem findPath_unreachable (mapState : MapState) (startQ startR endQ endR : Int)
    (hs : inBounds (startQ, startR)) :
    ((mapState (endQ, endR) = some "mountain" ∨ mapState (endQ, endR) = some "lake") →
        findPath mapState startQ startR endQ endR = some []) ∧
    (isTraversable mapState endQ endR = true →
        (∀ seq, ¬ Route mapState (startQ, startR) (endQ, endR) seq) →
        findPath mapState startQ startR endQ endR = some []) ∧
    (isTraversable mapState endQ endR = true →
        1 < hexDist (startQ, startR) (endQ, endR) →
        (∀ c ∈ getNeighbors endQ endR, isTraversable mapState c.q c.r = false) →
        findPath mapState startQ startR endQ endR = some []) := by
  obtain ⟨path, hp, hres⟩ := findPath_spec mapState startQ startR endQ endR
  have hkey : (∀ n, ¬ Reach mapState (startQ, startR) n (endQ, endR)) →
      findPath mapState startQ startR endQ endR = some [] := by
    intro hno
    rcases hres with ⟨_, hnil⟩ | ⟨_, hres⟩
    · rw [hp, hnil]
    · rcases hres with ⟨hnil, _⟩ | ⟨d, _, _, hd, _⟩
      · rw [hp, hnil]
      · exact absurd hd (hno d)
  refine ⟨?_, ?_, ?_⟩
  · intro hblocked
    have hf : isTraversable mapState endQ endR = false := by
      rw [← Bool.not_eq_true, traversable_iff]
      rintro ⟨h1, h2⟩
      rcases hblocked with h | h
      · exact h1 h
      · exact h2 h
    simp [findPath, hf]
  · intro _ hno
    apply hkey
    intro n hr
    obtain ⟨seq, hseq, _⟩ := hr.toRoute hs
    exact hno seq hseq
  · intro _ hfar hring
    exact hkey (no_reach_of_ring hfar hring)

/-- The six neighbours of `(3, 0)` are impassable and `(3, 0)` is not: no
route leads there from the camp, and `findPath(0, 0, 3, 0)` is empty; the
path to the `mountain` cell `(4, 0)` is empty too. -/
theorem findPath_unreachable_witness :
    inBounds (0, 0) ∧ isTraversable ringMap 3 0 = true ∧
      findPath ringMap 0 0 3 0 = some [] ∧ findPath ringMap 0 0 4 0 = some [] := by
  have h := findPath_unreachable ringMap 0 0 3 0 (by decide)
  have h' := findPath_unreachable ringMap 0 0 4 0 (by decide)
  have ht : isTraversable ringMap 3 0 = true := by decide!
  refine ⟨by decide, ht, h.2.2 ht (by decide) (by decide!), h'.1 (Or.inl (by decide!))⟩


/-! ## Import, export, edit and clear -/

/-- C11. Feeding the document built by `exportMap` from a state `st` to the
handler of `importMap`, in any state `st'`, sets the map state to the map
state of `st`: the same value under every key and no key added or lost,
whatever the timestamp. -/
theorem import_export_roundtrip (now : String) (st st' : AppState) :
    (importMap (ImportInput.document (exportMap now st)) st').mapState = st.mapState ∧
      (exportMap now st).radius = some MAP_RADIUS ∧
      ∀ now' : String, (exportMap now' st).cells = (exportMap now st).cells := by
  refine ⟨rfl, rfl, fun _ => rfl⟩

/-- C12. An input that fails to parse, and a document without a `cells` field,
leave the whole state, and so the map state, exactly as it was. -/
theorem importMap_without_cells (st : AppState) (radius : Option Int)
    (timestamp : Option String) :
    importMap ImportInput.unparsable st = st ∧
      importMap (ImportInput.document
        { radius := radius, cells := CellsField.falsy, timestamp := timestamp }) st = st ∧
      ∀ k, (importMap (ImportInput.document
        { radius := radius, cells := CellsField.falsy, timestamp := timestamp }) st).mapState k =
          st.mapState k := by
  refine ⟨rfl, rfl, fun _ => rfl⟩

/-- C13 as stated fails. A document whose `cells` is a truthy value that is
not an object (a number, a non-empty string, an array) is not rejected: the
handler calls `setMapState` with it, so the map state is replaced and the camp
at the origin is gone. A document without `cells` is skipped without an
alert: no error is reported for it. -/
theorem importMap_accepts_scalar_cells :
    AppState.init.mapState (0, 0) = some "camp" ∧
      (importMap (ImportInput.document
        { radius := some 16, cells := CellsField.scalar, timestamp := none })
          AppState.init).mapState (0, 0) = none ∧
      importAlert (ImportInput.document
        { radius := some 16, cells := CellsField.falsy, timestamp := none }) =
          AlertOutcome.notRaised := by
  refine ⟨?_, ?_, rfl⟩
  · have hmap : AppState.init.mapState = initialState := by simp only [AppState.init]
    rw [hmap, initialState_apply, if_pos (by decide), if_pos rfl]
  · simp only [importMap, KeyMap.empty]

/-- C13, amended. An input that fails to parse raises the alert and leaves the
state alone; a document whose `cells` is missing or falsy leaves the state
alone and raises no alert; for a document whose `cells` is truthy, an object
or not, the handler calls `setMapState` with that value unchecked, so the map
state is replaced before any validation, and whether the alert follows is
left to what that call does. -/
theorem importMap_outcomes (st : AppState) (radius : Option Int) (timestamp : Option String)
    (cells : MapState) :
    (importAlert ImportInput.unparsable = AlertOutcome.raised ∧
        importMap ImportInput.unparsable st = st) ∧
      (importAlert (ImportInput.document
          { radius := radius, cells := CellsField.falsy, timestamp := timestamp }) =
            AlertOutcome.notRaised ∧
        importMap (ImportInput.document
          { radius := radius, cells := CellsField.falsy, timestamp := timestamp }) st = st) ∧
      (importAlert (ImportInput.document
          { radius := radius, cells := CellsField.object cells, timestamp := timestamp }) =
            AlertOutcome.afterSetMapState ∧
        (importMap (ImportInput.document
          { radius := radius, cells := CellsField.object cells, timestamp := timestamp })
            st).mapState = cells) ∧
      (importAlert (ImportInput.document
          { radius := radius, cells := CellsField.scalar, timestamp := timestamp }) =
            AlertOutcome.afterSetMapState ∧
        (importMap (ImportInput.document
          { radius := radius, cells := CellsField.scalar, timestamp := timestamp })
            st).mapState = KeyMap.empty) :=
  ⟨⟨rfl, rfl⟩, ⟨rfl, rfl⟩, ⟨rfl, rfl⟩, ⟨rfl, rfl⟩⟩

/-- C14 as stated fails. A document whose `cells` gives the key `1,0` the value
`swamp` is taken: afterwards the map state holds `swamp` under that key, a
value that is not one of the nine tags and is not `unknown`. -/
theorem importMap_stores_unknown_tag :
    (Action.importFile (ImportInput.document
        { radius := some 16
          cells := CellsField.object (KeyMap.set initialState (1, 0) "swamp")
          timestamp := none })).offered ∧
      (run AppState.init [Action.importFile (ImportInput.document
        { radius := some 16
          cells := CellsField.object (KeyMap.set initialState (1, 0) "swamp")
          timestamp := none })]).mapState (1, 0) = some "swamp" ∧
      "swamp" ∉ CELL_TYPES ∧
      ¬ TagsClosed (run AppState.init [Action.importFile (ImportInput.document
        { radius := some 16
          cells := CellsField.object (KeyMap.set initialState (1, 0) "swamp")
          timestamp := none })]).mapState := by
  have h1 : (run AppState.init [Action.importFile (ImportInput.document
        { radius := some 16
          cells := CellsField.object (KeyMap.set initialState (1, 0) "swamp")
          timestamp := none })]).mapState (1, 0) = some "swamp" := by
    show KeyMap.set initialState (1, 0) "swamp" (1, 0) = some "swamp"
    simp [KeyMap.set]
  have h2 : "swamp" ∉ CELL_TYPES := by simp [CELL_TYPES]
  exact ⟨trivial, h1, h2, fun h => h2 (h _ _ h1)⟩

theorem palette_subset {t : String} (h : t ∈ palette) : t ∈ CELL_TYPES :=
  (List.mem_filter.mp h).1

theorem initialState_tagsClosed : TagsClosed initialState := by
  intro k v hv
  rw [initialState_apply] at hv
  by_cases hb : inBounds k
  · rw [if_pos hb] at hv
    by_cases h0 : k = (0, 0)
    · rw [if_pos h0] at hv
      simp only [Option.some.injEq] at hv
      rw [← hv]; simp [CELL_TYPES]
    · rw [if_neg h0] at hv
      simp only [Option.some.injEq] at hv
      rw [← hv]; simp [CELL_TYPES]
  · rw [if_neg hb] at hv
    exact Option.noConfusion hv

theorem step_tags (st : AppState) (a : Action) (ho : a.offered) (hk : a.tagsKnown)
    (hsel : st.selectedType ∈ palette) (hm : TagsClosed st.mapState) :
    (step st a).selectedType ∈ palette ∧ TagsClosed (step st a).mapState := by
  cases a with
  | selectType t => exact ⟨ho, hm⟩
  | togglePathfinding => exact ⟨hsel, hm⟩
  | clear =>
    simp only [step, clearMap, clearedState_eq]
    exact ⟨hsel, initialState_tagsClosed⟩
  | importFile input =>
    cases input with
    | unparsable => exact ⟨hsel, hm⟩
    | document doc =>
      simp only [Action.tagsKnown] at hk
      simp only [step, importMap]
      split
      · exact ⟨hsel, hm⟩
      · refine ⟨hsel, ?_⟩
        intro k v hv
        exact Option.noConfusion hv
      · next cells hc =>
        rw [hc] at hk
        exact ⟨hsel, hk⟩
  | click coord =>
    simp only [step, handleHexClick]
    split_ifs with h1 h2
    · exact ⟨hsel, hm⟩
    · exact ⟨hsel, hm⟩
    · refine ⟨hsel, ?_⟩
      intro k v hv
      change (if k = getKey coord then some st.selectedType else st.mapState k) = some v at hv
      by_cases hk' : k = getKey coord
      · rw [if_pos hk'] at hv
        simp only [Option.some.injEq] at hv
        rw [← hv]
        exact palette_subset hsel
      · rw [if_neg hk'] at hv
        exact hm k v hv

/-- C14, amended. After any sequence of offered actions in which every
imported document has no value outside the nine tags in its `cells` object,
every value stored in the map state is one of the nine tags. -/
theorem tagsClosed_of_known_imports (actions : List Action)
    (h : ∀ a ∈ actions, a.offered ∧ a.tagsKnown) :
    TagsClosed (run AppState.init actions).mapState := by
  have hsel : AppState.init.selectedType ∈ palette := by
    simp [AppState.init, palette, CELL_TYPES, List.filter]
  have hmap : AppState.init.mapState = initialState := by simp only [AppState.init]
  have hm : TagsClosed AppState.init.mapState := by rw [hmap]; exact initialState_tagsClosed
  have key : ∀ (l : List Action) (st : AppState), (∀ a ∈ l, a.offered ∧ a.tagsKnown) →
      st.selectedType ∈ palette → TagsClosed st.mapState → TagsClosed (run st l).mapState := by
    intro l
    induction l with
    | nil => intro st _ _ hm; exact hm
    | cons a l ih =>
      intro st hl hsel hm
      have h1 := hl a (List.mem_cons_self _ _)
      obtain ⟨h2, h3⟩ := step_tags st a h1.1 h1.2 hsel hm
      exact ih (step st a) (fun b hb => hl b (List.mem_cons_of_mem _ hb)) h2 h3
  exact key actions AppState.init h hsel hm

/-- An edit to `mountain`, then the import of a document whose `cells` holds
`lake` under `1,0` and nothing else. -/
theorem tagsClosed_of_known_imports_witness :
    TagsClosed (run AppState.init
      [Action.selectType "mountain", Action.click { q := 1, r := 0, s := some (-1) },
        Action.importFile (ImportInput.document
          { radius := some 16
            cells := CellsField.object (KeyMap.set KeyMap.empty (1, 0) "lake")
            timestamp := none })]).mapState :=
  tagsClosed_of_known_imports _ (by
    intro a ha
    simp only [List.mem_cons, List.mem_singleton, List.not_mem_nil, or_false] at ha
    rcases ha with rfl | rfl | rfl
    · exact ⟨by simp [Action.offered, palette, CELL_TYPES, List.filter], trivial⟩
    · exact ⟨by simp only [Action.offered, hexCoords, mem_generateHexCoords]; decide, trivial⟩
    · refine ⟨trivial, ?_⟩
      intro k v hv
      change (if k = ((1, 0) : Key) then some "lake" else none) = some v at hv
      by_cases hk : k = ((1, 0) : Key)
      · rw [if_pos hk] at hv
        simp only [Option.some.injEq] at hv
        rw [← hv]; simp [CELL_TYPES]
      · rw [if_neg hk] at hv
        exact Option.noConfusion hv)

/-- C15. In edit mode a click on the origin leaves the whole state unchanged;
a click on any other coordinate stores the selected type under the key of the
coordinate and leaves the value, or the absence, of every other key as it was. -/
theorem handleHexClick_edit (st : AppState) (coord : Coord) (hmode : st.pathfindingMode = false) :
    (coord.q = 0 ∧ coord.r = 0 → handleHexClick coord st = st) ∧
      (¬ (coord.q = 0 ∧ coord.r = 0) →
        (handleHexClick coord st).mapState (getKey coord) = some st.selectedType ∧
        ∀ k, k ≠ getKey coord → (handleHexClick coord st).mapState k = st.mapState k) := by
  constructor
  · intro h0
    simp only [handleHexClick, hmode, Bool.false_eq_true, if_false, h0, and_self, if_true]
  · intro h0
    have e : (handleHexClick coord st).mapState =
        KeyMap.set st.mapState (getKey coord) st.selectedType := by
      simp only [handleHexClick, hmode, Bool.false_eq_true, if_false, h0]
    rw [e]
    refine ⟨?_, fun k hk => ?_⟩
    · show (if getKey coord = getKey coord then some st.selectedType
        else st.mapState (getKey coord)) = some st.selectedType
      rw [if_pos rfl]
    · show (if k = getKey coord then some st.selectedType else st.mapState k) = st.mapState k
      rw [if_neg hk]

/-- In the initial state, with `mountain` selected: a click on the origin
changes nothing, a click on `(1, 0)` stores `mountain` there and only there. -/
theorem handleHexClick_edit_witness :
    handleHexClick { q := 0, r := 0, s := some 0 }
        (step AppState.init (Action.selectType "mountain")) =
      step AppState.init (Action.selectType "mountain") ∧
    (handleHexClick { q := 1, r := 0, s := some (-1) }
        (step AppState.init (Action.selectType "mountain"))).mapState (1, 0) =
      some "mountain" ∧
    ∀ k, k ≠ ((1, 0) : Key) →
      (handleHexClick { q := 1, r := 0, s := some (-1) }
        (step AppState.init (Action.selectType "mountain"))).mapState k =
        (step AppState.init (Action.selectType "mountain")).mapState k :=
  ⟨(handleHexClick_edit (step AppState.init (Action.selectType "mountain"))
      { q := 0, r := 0, s := some 0 } rfl).1 ⟨rfl, rfl⟩,
    ((handleHexClick_edit (step AppState.init (Action.selectType "mountain"))
      { q := 1, r := 0, s := some (-1) } rfl).2 (by decide)).1,
    ((handleHexClick_edit (step AppState.init (Action.selectType "mountain"))
      { q := 1, r := 0, s := some (-1) } rfl).2 (by decide)).2⟩

/-- C16. Whatever the state, `clearMap` produces the map state of the
initializer: `camp` at `(0, 0)`, `unknown` at every other key within the
radius, and no other key; so clearing twice gives what clearing once gives. -/
theorem clearMap_eq_initial (st : AppState) :
    (clearMap st).mapState = AppState.init.mapState ∧
      (∀ k : Key, (clearMap st).mapState k =
        if inBounds k then some (if k = (0, 0) then "camp" else "unknown") else none) ∧
      (∀ c ∈ hexCoords, (clearMap st).mapState (getKey c) =
        some (if c.q = 0 ∧ c.r = 0 then "camp" else "unknown")) ∧
      clearMap (clearMap st) = clearMap st := by
  have h1 : (clearMap st).mapState = initialState := by
    simp only [clearMap, clearedState_eq]
  have h2 : AppState.init.mapState = initialState := by simp only [AppState.init]
  refine ⟨by rw [h1, h2], fun k => by rw [h1]; exact initialState_apply k, ?_, ?_⟩
  · intro c hc
    rw [h1, initialState_apply,
      if_pos ((mem_hexCoords_keys _).mp (List.mem_map_of_mem _ hc))]
    simp [getKey, Prod.ext_iff]
  · simp only [clearMap, clearedState_eq]


/-! ## The main loop as a breadth-first search -/

/-- One call of the main loop with fuel left, in terms of the selection and the expansion. -/
theorem searchLoop_succ (mapState : MapState) (end_ : Coord) (fuel : Nat) (st : SearchState) :
    searchLoop mapState end_ (fuel + 1) st =
      match selectCurrent st with
      | none => some []
      | some sel =>
        if sel.1.q = end_.q ∧ sel.1.r = end_.r then
          reconstruct st.cameFrom searchFuel (some sel.1) []
        else searchLoop mapState end_ fuel (expandCurrent mapState end_ st) := by
  cases h : st.openSet with
  | nil => simp [searchLoop, selectCurrent, h]
  | cons c rest => simp [searchLoop, selectCurrent, expandCurrent, h]

theorem Inv.select {mapState : MapState} {sk ek : Key} {ex : Key → Key → Prop}
    {st : SearchState} (h : Inv mapState sk ek ex st) :
    selectCurrent st = st.openSet.head?.map fun c => (c, 0) := by
  cases hopen : st.openSet with
  | nil => simp [selectCurrent, hopen]
  | cons c rest =>
    simp only [selectCurrent, hopen, List.head?_cons, Option.map_some']
    rw [selectLoop_nan _ h.f_nan]

/-- The expansion of a state that has `c` first in `openSet`, under the invariant. -/
theorem Inv.expandCurrent_eq {mapState : MapState} {sk ek : Key} {ex : Key → Key → Prop}
    {st : SearchState} (h : Inv mapState sk ek ex st) (end_ : Coord) {c : Coord}
    {rest : List Coord} (hopen : st.openSet = c :: rest) :
    expandCurrent mapState end_ st =
      (getNeighbors c.q c.r).foldl (expandNeighbor mapState end_ c)
        { st with openSet := rest } := by
  simp only [expandCurrent, hopen, selectLoop_nan _ h.f_nan, List.eraseIdx_cons_zero]

/-- Every state at the head of the main loop satisfies the invariant. -/
theorem Visited.inv {mapState : MapState} {start end_ : Coord} (hend : end_.s = none)
    {st : SearchState} (hv : Visited mapState start end_ st) :
    Inv mapState (getKey start) (getKey end_) (fun _ _ => False) st := by
  induction hv with
  | init => exact (initialSearch_inv mapState start end_ hend).1
  | @next st cur idx _ hsel hgoal ih =>
    rw [ih.select] at hsel
    cases hopen : st.openSet with
    | nil => rw [hopen] at hsel; simp at hsel
    | cons c rest =>
      rw [hopen] at hsel
      simp only [List.head?_cons, Option.map_some', Option.some.injEq, Prod.mk.injEq] at hsel
      obtain ⟨rfl, _⟩ := hsel
      obtain ⟨d, hd⟩ := ih.open_g c (hopen ▸ List.mem_cons_self _ _)
      have hkey : getKey c ≠ getKey end_ := by
        intro e
        simp only [getKey, Prod.mk.injEq] at e
        exact hgoal e
      rw [ih.expandCurrent_eq end_ hopen]
      exact (Mid.fold end_ hend _ _ (ih.pop hopen hd hkey)).done.1

/-- The body of the neighbour loop leaves every entry of `gScore` and of `cameFrom` as it is. -/
theorem Mid.step_keeps {mapState : MapState} {sk ek : Key} {c nb : Coord} {d M : Nat}
    {todo : List Coord} {st : SearchState} (end_ : Coord) (hend : end_.s = none)
    (h : Mid mapState sk ek c d M (nb :: todo) st) :
    (∀ k v, st.gScore k = some v → (expandNeighbor mapState end_ c st nb).gScore k = some v) ∧
      (∀ k p, st.cameFrom k = some p →
        (expandNeighbor mapState end_ c st nb).cameFrom k = some p) := by
  rw [expandNeighbor_eq mapState end_ c nb st d hend h.g_cur (h.inv.g_num _)
    (fun j hj => (h.seen_le _ _ hj).1) (fun hg => h.inv.not_open_of_none hg)]
  split_ifs with hc
  · obtain ⟨_, hg⟩ := hc
    constructor
    · intro k v hv
      rw [pushNode_gScore]
      have hne : k ≠ getKey nb := by
        intro e; rw [e, hg] at hv; exact Option.noConfusion hv
      rw [if_neg hne]; exact hv
    · intro k p hp
      have hne : k ≠ getKey nb := by
        intro e
        obtain ⟨i, _, h2, _⟩ := h.inv.came k p hp
        unfold HasG at h2
        rw [e, hg] at h2
        exact Option.noConfusion h2
      show (if k = getKey nb then some c else st.cameFrom k) = some p
      rw [if_neg hne]; exact hp
  · exact ⟨fun _ _ hv => hv, fun _ _ hp => hp⟩

/-- The whole neighbour loop leaves every entry of `gScore` and of `cameFrom` as it is. -/
theorem Mid.fold_keeps {mapState : MapState} {sk ek : Key} {c : Coord} {d M : Nat} (end_ : Coord)
    (hend : end_.s = none) (todo : List Coord) :
    ∀ st : SearchState, Mid mapState sk ek c d M todo st →
      (∀ k v, st.gScore k = some v →
        (todo.foldl (expandNeighbor mapState end_ c) st).gScore k = some v) ∧
      (∀ k p, st.cameFrom k = some p →
        (todo.foldl (expandNeighbor mapState end_ c) st).cameFrom k = some p) := by
  induction todo with
  | nil => intro st _; exact ⟨fun _ _ hv => hv, fun _ _ hp => hp⟩
  | cons nb todo ih =>
    intro st h
    rw [List.foldl_cons]
    obtain ⟨h1, h2⟩ := h.step_keeps end_ hend
    obtain ⟨h3, h4⟩ := ih _ (h.step end_ hend)
    exact ⟨fun k v hv => h3 k v (h1 k v hv), fun k p hp => h4 k p (h2 k p hp)⟩

/-- More fuel does not change what the main loop returns. -/
theorem searchLoop_mono (mapState : MapState) (end_ : Coord) :
    ∀ (fuel : Nat) (st : SearchState) (path : List Coord),
      searchLoop mapState end_ fuel st = some path →
      ∀ fuel', fuel ≤ fuel' → searchLoop mapState end_ fuel' st = some path := by
  intro fuel
  induction fuel with
  | zero => intro st path h; simp [searchLoop] at h
  | succ fuel ih =>
    intro st path h fuel' hle
    obtain ⟨f, rfl⟩ : ∃ f, fuel' = f + 1 := ⟨fuel' - 1, by omega⟩
    rw [searchLoop_succ] at h ⊢
    cases hsel : selectCurrent st with
    | none => rw [hsel] at h; exact h
    | some sel =>
      rw [hsel] at h
      simp only at h ⊢
      split_ifs at h ⊢ with hg
      · exact h
      · exact ih _ _ h f (by omega)

/-- More fuel does not change what the reconstruction loop returns. -/
theorem reconstruct_mono (cameFrom : KeyMap Coord) :
    ∀ (fuel : Nat) (temp : Option Coord) (acc path : List Coord),
      reconstruct cameFrom fuel temp acc = some path →
      ∀ fuel', fuel ≤ fuel' → reconstruct cameFrom fuel' temp acc = some path := by
  intro fuel
  induction fuel with
  | zero => intro temp acc path h; simp [reconstruct] at h
  | succ fuel ih =>
    intro temp acc path h fuel' hle
    obtain ⟨f, rfl⟩ : ∃ f, fuel' = f + 1 := ⟨fuel' - 1, by omega⟩
    cases temp with
    | none => simpa [reconstruct] using h
    | some t =>
      simp only [reconstruct] at h ⊢
      exact ih _ _ _ h f (by omega)

/-- The keys of the coordinates that `getNeighbors` returns are the
neighbours of the breadth-first search, in the same order. -/
theorem getNeighbors_keys (q r : Int) :
    (getNeighbors q r).map getKey = bfsNeighbors (q, r) := by
  unfold getNeighbors bfsNeighbors
  rw [List.filter_map, List.filter_map, List.map_map]
  congr 1
  apply List.filter_congr
  intro d _
  simp only [Function.comp, inBounds, Bool.decide_and, Bool.and_assoc]

theorem Trace.set {cameFrom : KeyMap Coord} {k : Key} {l : List Key} (x : Key) (v : Coord)
    (h : Trace cameFrom k l) (hk : k ≠ x) (hl : ∀ k' ∈ l, k' ≠ x) :
    Trace (cameFrom.set x v) k l := by
  induction h with
  | @root k hnone =>
    refine Trace.root ?_
    show (if k = x then some v else cameFrom k) = none
    rw [if_neg hk]; exact hnone
  | @link k p l hsome _ ih =>
    refine Trace.link ?_ (ih (hl _ (List.mem_cons_self _ _))
      (fun k' hk' => hl k' (List.mem_cons_of_mem _ hk')))
    show (if k = x then some v else cameFrom k) = some p
    rw [if_neg hk]; exact hsome

/-- Every key on the way back along `cameFrom` has a hop count. -/
theorem Trace.discovered {mapState : MapState} {sk ek : Key} {ex : Key → Key → Prop}
    {st : SearchState} (h : Inv mapState sk ek ex st) {k : Key} {l : List Key}
    (ht : Trace st.cameFrom k l) : ∀ k' ∈ l, ∃ i, HasG st k' i := by
  induction ht with
  | root _ => intro k' hk'; simp at hk'
  | @link k p l hsome _ ih =>
    intro k' hk'
    rcases List.mem_cons.mp hk' with e | e
    · obtain ⟨i, h1, _, _⟩ := h.came k p hsome
      exact ⟨i, e ▸ h1⟩
    · exact ih k' e

/-- The reconstruction loop returns the way back that `cameFrom` gives, reversed. -/
theorem reconstruct_trace {cameFrom : KeyMap Coord} :
    ∀ {k : Key} {l : List Key}, Trace cameFrom k l → ∀ (x : Coord) (acc : List Coord) (fuel : Nat),
      getKey x = k → l.length + 2 ≤ fuel →
      ∃ path, reconstruct cameFrom fuel (some x) acc = some (path ++ acc) ∧
        path.map getKey = (k :: l).reverse := by
  intro k l h
  induction h with
  | @root k hnone =>
    intro x acc fuel hx hfuel
    obtain ⟨f, rfl⟩ : ∃ f, fuel = f + 2 := ⟨fuel - 2, by omega⟩
    refine ⟨[x], ?_, by simp [hx]⟩
    simp [reconstruct, hx, hnone]
  | @link k p l hsome _ ih =>
    intro x acc fuel hx hfuel
    obtain ⟨f, rfl⟩ : ∃ f, fuel = f + 1 := ⟨fuel - 1, by omega⟩
    obtain ⟨path, hp, hkeys⟩ := ih p (x :: acc) f rfl (by simp at hfuel ⊢; omega)
    refine ⟨path ++ [x], ?_, ?_⟩
    · simp only [reconstruct, hx, hsome, hp]
      simp
    · simp only [List.map_append, List.map_cons, List.map_nil, hkeys, hx]
      simp

/-- The body of the neighbour loop and one look of the breadth-first search agree. -/
theorem Mid.sim_step {mapState : MapState} {sk ek : Key} {c nb : Coord} {d M : Nat}
    {todo : List Coord} {st : SearchState} {bst : BfsState} {anc : List Key} (end_ : Coord)
    (hend : end_.s = none) (h : Mid mapState sk ek c d M (nb :: todo) st) (hs : Sim st bst)
    (hc : Trace st.cameFrom (getKey c) anc) :
    Sim (expandNeighbor mapState end_ c st nb) (bfsVisit mapState (getKey c, anc) bst (getKey nb)) ∧
      Trace (expandNeighbor mapState end_ c st nb).cameFrom (getKey c) anc := by
  obtain ⟨hq, htr, hv⟩ := hs
  rw [expandNeighbor_eq mapState end_ c nb st d hend h.g_cur (h.inv.g_num _)
    (fun j hj => (h.seen_le _ _ hj).1) (fun hg => h.inv.not_open_of_none hg)]
  unfold bfsVisit
  have hvis : bst.visited.contains (getKey nb) = (st.gScore (getKey nb)).isSome := by
    rw [Bool.eq_iff_iff, ← hv]
    simp
  by_cases hcond : isTraversable mapState nb.q nb.r = true ∧ st.gScore (getKey nb) = none
  · have hb : (isTraversable mapState (getKey nb).1 (getKey nb).2 &&
        !bst.visited.contains (getKey nb)) = true := by
      rw [hvis, hcond.2]
      simp only [getKey, hcond.1]
      rfl
    rw [if_pos hcond, if_pos hb]
    -- a key with a hop count is not the new key
    have hne : ∀ k i, HasG st k i → k ≠ getKey nb := by
      intro k i hi e
      unfold HasG at hi
      rw [e, hcond.2] at hi
      exact Option.noConfusion hi
    have hkeep : ∀ (k : Key) (l : List Key), (∃ i, HasG st k i) → Trace st.cameFrom k l →
        Trace (pushNode st c nb d).cameFrom k l := by
      intro k l ⟨i, hi⟩ ht
      refine Trace.set (getKey nb) c ht (hne k i hi) ?_
      intro k' hk'
      obtain ⟨j, hj⟩ := Trace.discovered h.inv ht k' hk'
      exact hne k' j hj
    have hc' := hkeep _ _ ⟨d, h.g_cur⟩ hc
    refine ⟨⟨?_, ?_, ?_⟩, hc'⟩
    · show (bst.queue ++ [(getKey nb, getKey c :: anc)]).map Prod.fst =
        (st.openSet ++ [nb]).map getKey
      rw [List.map_append, List.map_append, hq]
      rfl
    · intro e he
      change e ∈ bst.queue ++ [(getKey nb, getKey c :: anc)] at he
      rw [List.mem_append, List.mem_singleton] at he
      rcases he with he | he
      · have hmem : e.1 ∈ st.openSet.map getKey := by
          rw [← hq]; exact List.mem_map_of_mem _ he
        obtain ⟨x, hx, hxe⟩ := List.mem_map.mp hmem
        obtain ⟨i, hi⟩ := h.inv.open_g x hx
        exact hkeep _ _ ⟨i, hxe ▸ hi⟩ (htr e he)
      · rw [he]
        exact Trace.link (by show (if getKey nb = getKey nb then some c else _) = some c
                             rw [if_pos rfl]) hc'
    · intro k
      show k ∈ getKey nb :: bst.visited ↔ ((pushNode st c nb d).gScore k).isSome
      rw [pushNode_gScore, List.mem_cons, hv]
      by_cases hk : k = getKey nb
      · simp [hk]
      · simp [hk]
  · have hb : ¬ (isTraversable mapState (getKey nb).1 (getKey nb).2 &&
        !bst.visited.contains (getKey nb)) = true := by
      intro hb
      rw [Bool.and_eq_true, hvis] at hb
      apply hcond
      refine ⟨hb.1, ?_⟩
      cases hg : st.gScore (getKey nb) with
      | none => rfl
      | some v => rw [hg] at hb; simp at hb
    rw [if_neg hcond, if_neg hb]
    exact ⟨⟨hq, htr, hv⟩, hc⟩

/-- The neighbour loop and the neighbour loop of the breadth-first search agree. -/
theorem Mid.sim_fold {mapState : MapState} {sk ek : Key} {c : Coord} {d M : Nat} {anc : List Key}
    (end_ : Coord) (hend : end_.s = none) (todo : List Coord) :
    ∀ (st : SearchState) (bst : BfsState), Mid mapState sk ek c d M todo st → Sim st bst →
      Trace st.cameFrom (getKey c) anc →
      Sim (todo.foldl (expandNeighbor mapState end_ c) st)
        ((todo.map getKey).foldl (bfsVisit mapState (getKey c, anc)) bst) := by
  induction todo with
  | nil => intro st bst _ hs _; exact hs
  | cons nb todo ih =>
    intro st bst h hs hc
    rw [List.map_cons, List.foldl_cons, List.foldl_cons]
    obtain ⟨h1, h2⟩ := h.sim_step end_ hend hs hc
    exact ih _ _ (h.step end_ hend) h1 h2

/-- From states that agree, the keys of what the main loop returns are what
the loop of the breadth-first search returns, whatever the fuel. -/
theorem searchLoop_eq_bfsLoop (mapState : MapState) (sk : Key) (end_ : Coord)
    (hend : end_.s = none) :
    ∀ (fuel : Nat) (st : SearchState) (bst : BfsState),
      Inv mapState sk (getKey end_) (fun _ _ => False) st → Sim st bst →
      (searchLoop mapState end_ fuel st).map (List.map getKey) =
        bfsLoop mapState (getKey end_) fuel bst := by
  intro fuel
  induction fuel with
  | zero => intro st bst _ _; rfl
  | succ fuel ih =>
    intro st bst h hs
    obtain ⟨hq, htr, hv⟩ := hs
    cases hopen : st.openSet with
    | nil =>
      have hbq : bst.queue = [] := by
        rw [hopen] at hq
        simpa using hq
      simp [searchLoop, bfsLoop, hopen, hbq]
    | cons c rest =>
      rw [hopen] at hq
      obtain ⟨e, brest, hbq, he1, hrest⟩ : ∃ e brest, bst.queue = e :: brest ∧
          e.1 = getKey c ∧ brest.map Prod.fst = rest.map getKey := by
        cases hb : bst.queue with
        | nil => rw [hb] at hq; simp at hq
        | cons e brest =>
          rw [hb] at hq
          simp only [List.map_cons, List.cons.injEq] at hq
          exact ⟨e, brest, rfl, hq.1, hq.2⟩
      have hsel : selectLoop st.fScore rest 1 (c, 0) = (c, 0) := selectLoop_nan _ h.f_nan _ _ _
      have hce : Trace st.cameFrom (getKey c) e.2 := by
        have := htr e (hbq ▸ List.mem_cons_self _ _)
        rw [he1] at this
        exact this
      obtain ⟨d, hd⟩ := h.open_g c (hopen ▸ List.mem_cons_self _ _)
      by_cases hgoal : c.q = end_.q ∧ c.r = end_.r
      · have hkey : e.1 = getKey end_ := by rw [he1]; simp [getKey, hgoal.1, hgoal.2]
        -- the reconstruction with the fuel of the code is the one along the trace
        obtain ⟨rp, hr, _⟩ := reconstruct_spec h d c [] searchFuel hd (by
          have := h.depth _ _ hd
          have hpos : 1 ≤ measure st := by simp only [measure, hopen, List.length_cons]; omega
          unfold searchFuel; omega)
        obtain ⟨path, hp, hkeys⟩ := reconstruct_trace hce c []
          (max searchFuel (e.2.length + 2)) rfl (le_max_right _ _)
        have hr' := reconstruct_mono _ _ _ _ _ hr (max searchFuel (e.2.length + 2))
          (le_max_left _ _)
        rw [hp] at hr'
        simp only [List.append_nil, Option.some.injEq] at hr' hr
        have hcend : getKey c = getKey end_ := by rw [← he1]; exact hkey
        simp only [searchLoop, bfsLoop, hopen, hbq, hsel, hgoal, and_self, if_true, hkey, hr,
          Option.map_some']
        rw [← hr', hkeys, hcend]
      · have hkey : getKey c ≠ getKey end_ := by
          intro e'
          simp only [getKey, Prod.mk.injEq] at e'
          exact hgoal e'
        have hkey' : ¬ e.1 = getKey end_ := by rw [he1]; exact hkey
        have hmid := h.pop hopen hd hkey
        have hinv := (Mid.fold end_ hend _ _ hmid).done.1
        have hsim : Sim { st with openSet := rest } { bst with queue := brest } := by
          refine ⟨hrest, ?_, hv⟩
          intro e' he'
          exact htr e' (hbq ▸ List.mem_cons_of_mem _ he')
        have hsim' := Mid.sim_fold end_ hend _ _ _ hmid hsim hce
        rw [getNeighbors_keys] at hsim'
        have hee : (getKey c, e.2) = e := by rw [← he1]
        rw [hee] at hsim'
        simp only [searchLoop, bfsLoop, hopen, hbq, hsel, hgoal, hkey', if_false,
          List.eraseIdx_cons_zero]
        have hb1 : bfsNeighbors e.1 = bfsNeighbors (c.q, c.r) := by rw [he1]; rfl
        rw [hb1]
        exact ih _ _ hinv hsim'

theorem initialSearch_sim (start end_ : Coord) :
    Sim (initialSearch start end_)
      { queue := [(getKey start, [])], visited := [getKey start] } := by
  refine ⟨rfl, ?_, fun k => ?_⟩
  · intro e he
    rw [List.mem_singleton] at he
    rw [he]
    exact Trace.root rfl
  · show k ∈ [getKey start] ↔
      (if k = getKey start then some (JSNum.num 0) else (none : Option JSNum)).isSome = true
    by_cases hk : k = getKey start <;> simp [hk]

/-- The keys of what the main loop of `findPath` returns are what the plain
breadth-first search returns. -/
theorem searchLoop_keys_eq_bfsPath (mapState : MapState) (startQ startR endQ endR : Int) :
    (searchLoop mapState { q := endQ, r := endR, s := none } searchFuel
        (initialSearch { q := startQ, r := startR, s := none }
          { q := endQ, r := endR, s := none })).map (List.map getKey) =
      bfsPath mapState startQ startR endQ endR :=
  searchLoop_eq_bfsLoop mapState (startQ, startR) { q := endQ, r := endR, s := none } rfl
    searchFuel _ _
    (initialSearch_inv mapState { q := startQ, r := startR, s := none }
      { q := endQ, r := endR, s := none } rfl).1
    (initialSearch_sim { q := startQ, r := startR, s := none }
      { q := endQ, r := endR, s := none })

theorem Inv.fScore_nan {mapState : MapState} {sk ek : Key} {ex : Key → Key → Prop}
    {st : SearchState} (h : Inv mapState sk ek ex st) (k : Key) :
    JSNum.ofGet (st.fScore k) = JSNum.nan := by
  cases hf : st.fScore k with
  | none => rfl
  | some v => rw [h.f_nan k v hf]; rfl

/-- An iteration that does not return decreases the measure and keeps the
entries of `gScore` and `cameFrom`. -/
theorem Visited.iteration {mapState : MapState} {start end_ : Coord} (hend : end_.s = none)
    {st : SearchState} (hv : Visited mapState start end_ st) {current : Coord} {index : Nat}
    (hsel : selectCurrent st = some (current, index))
    (hgoal : ¬ (current.q = end_.q ∧ current.r = end_.r)) :
    measure (expandCurrent mapState end_ st) < measure st ∧
      (∀ k v, st.gScore k = some v → (expandCurrent mapState end_ st).gScore k = some v) ∧
      (∀ k p, st.cameFrom k = some p →
        (expandCurrent mapState end_ st).cameFrom k = some p) := by
  have h := hv.inv hend
  rw [h.select] at hsel
  cases hopen : st.openSet with
  | nil => rw [hopen] at hsel; simp at hsel
  | cons c rest =>
    rw [hopen] at hsel
    simp only [List.head?_cons, Option.map_some', Option.some.injEq, Prod.mk.injEq] at hsel
    obtain ⟨rfl, _⟩ := hsel
    obtain ⟨d, hd⟩ := h.open_g c (hopen ▸ List.mem_cons_self _ _)
    have hkey : getKey c ≠ getKey end_ := by
      intro e
      simp only [getKey, Prod.mk.injEq] at e
      exact hgoal e
    have hmid := h.pop hopen hd hkey
    rw [h.expandCurrent_eq end_ hopen]
    exact ⟨(Mid.fold end_ hend _ _ hmid).done.2, Mid.fold_keeps end_ hend _ _ hmid⟩

/-- C17, the code at the failing input `findPath(0, 0, -2, 0)` on the initial
map. `hexDistance` of the start and end objects, which carry no `s`, is `NaN`,
not the hex distance 2, and the `fScore` recorded for the start is `NaN`. After
the first iteration the six neighbours of the camp are in `openSet`, each with
`gScore` 1 and `fScore` `NaN`; the scan picks `(1, 0)`, at hex distance 3 from
the end, although `(-1, 0)`, at hex distance 1 from the end, is in `openSet`. -/
theorem fScore_is_nan_at_west_search :
    hexDistance { q := 0, r := 0, s := none } { q := -2, r := 0, s := none } = JSNum.nan ∧
    hexDist (0, 0) (-2, 0) = 2 ∧
    (initialSearch { q := 0, r := 0, s := none } { q := -2, r := 0, s := none }).fScore (0, 0) =
      some JSNum.nan ∧
    westSearch.openSet.map getKey = [(1, 0), (1, -1), (0, -1), (-1, 0), (-1, 1), (0, 1)] ∧
    selectCurrent westSearch = some ({ q := 1, r := 0, s := some (-1) }, 0) ∧
    westSearch.gScore (1, 0) = some (JSNum.num 1) ∧
    westSearch.fScore (1, 0) = some JSNum.nan ∧ hexDist (1, 0) (-2, 0) = 3 ∧
    westSearch.gScore (-1, 0) = some (JSNum.num 1) ∧
    westSearch.fScore (-1, 0) = some JSNum.nan ∧ hexDist (-1, 0) (-2, 0) = 1 := by
  refine ⟨by decide!, by decide!, by decide!, by decide!, by decide!, by decide!, by decide!,
    by decide!, by decide!, by decide!, by decide!⟩

/-- C18. For every map state and all integer coordinates `findPath` returns:
neither loop exhausts its fuel, and more fuel for the main loop changes
nothing. Every iteration of the main loop that does not return decreases the
number of keys within the radius without `gScore` plus the length of
`openSet`, and a step along `cameFrom` lowers the hop count by one. -/
theorem findPath_terminates (mapState : MapState) (startQ startR endQ endR : Int) :
    (∃ path, findPath mapState startQ startR endQ endR = some path) ∧
    (∀ fuel, searchFuel ≤ fuel →
      searchLoop mapState { q := endQ, r := endR, s := none } fuel
          (initialSearch { q := startQ, r := startR, s := none }
            { q := endQ, r := endR, s := none }) =
        searchLoop mapState { q := endQ, r := endR, s := none } searchFuel
          (initialSearch { q := startQ, r := startR, s := none }
            { q := endQ, r := endR, s := none })) ∧
    measure (initialSearch { q := startQ, r := startR, s := none }
      { q := endQ, r := endR, s := none }) < searchFuel ∧
    ∀ st, Visited mapState { q := startQ, r := startR, s := none }
        { q := endQ, r := endR, s := none } st →
      (∀ current index, selectCurrent st = some (current, index) →
        ¬ (current.q = endQ ∧ current.r = endR) →
        measure (expandCurrent mapState { q := endQ, r := endR, s := none } st) < measure st) ∧
      ∀ k p, st.cameFrom k = some p → ∃ i, HasG st (getKey p) i ∧ HasG st k (i + 1) := by
  obtain ⟨hinv, hm⟩ := initialSearch_inv mapState { q := startQ, r := startR, s := none }
    { q := endQ, r := endR, s := none } rfl
  obtain ⟨path, hp, _⟩ := searchLoop_spec mapState (startQ, startR)
    { q := endQ, r := endR, s := none } rfl searchFuel _ hinv hm
  refine ⟨?_, ?_, hm, ?_⟩
  · obtain ⟨path', hp', _⟩ := findPath_spec mapState startQ startR endQ endR
    exact ⟨path', hp'⟩
  · intro fuel hle
    rw [hp]
    exact searchLoop_mono _ _ _ _ _ hp fuel hle
  · intro st hv
    refine ⟨fun current index hsel hgoal => (hv.iteration rfl hsel hgoal).1, ?_⟩
    intro k p hkp
    obtain ⟨i, h1, h2, _⟩ := (hv.inv rfl).came k p hkp
    exact ⟨i, h1, h2⟩

/-- C19 as stated fails. On the initial map with `(1, 0)` edited to `mountain`,
a breadth-first search from `(1, 0)` to `(1, 0)` takes the start from the
queue, finds that it is the end and returns the one-element path, while
`findPath(1, 0, 1, 0)` returns the empty path. -/
theorem findPath_differs_from_bfs_on_blocked_start :
    findPath blockedCellMap 1 0 1 0 = some [] ∧
      bfsPath blockedCellMap 1 0 1 0 = some [(1, 0)] := by
  constructor
  · have ht : isTraversable blockedCellMap 1 0 = false := by
      simp [isTraversable, blockedCellMap, KeyMap.set]
    simp [findPath, ht]
  · decide!

/-- C19, amended. At every iteration of the main loop of `findPath` the
comparison of the selection scan is false for every pair of nodes of
`openSet`, so the node selected is `openSet[0]`; an iteration that does not
return leaves every entry of `gScore` and of `cameFrom` as it is; and unless
start and end are the same impassable cell, the keys of the path that
`findPath` returns are exactly the path that the plain breadth-first search
over the direction order returns. -/
theorem findPath_is_bfs (mapState : MapState) (startQ startR endQ endR : Int) :
    (∀ st, Visited mapState { q := startQ, r := startR, s := none }
        { q := endQ, r := endR, s := none } st →
      (∀ x ∈ st.openSet, ∀ y ∈ st.openSet,
        JSNum.lt (JSNum.ofGet (st.fScore (getKey x))) (JSNum.ofGet (st.fScore (getKey y))) =
          false) ∧
      selectCurrent st = st.openSet.head?.map (fun c => (c, 0)) ∧
      ∀ current index, selectCurrent st = some (current, index) →
        ¬ (current.q = endQ ∧ current.r = endR) →
        (∀ k v, st.gScore k = some v →
          (expandCurrent mapState { q := endQ, r := endR, s := none } st).gScore k = some v) ∧
        (∀ k p, st.cameFrom k = some p →
          (expandCurrent mapState { q := endQ, r := endR, s := none } st).cameFrom k =
            some p)) ∧
    ((startQ, startR) ≠ (endQ, endR) ∨ isTraversable mapState endQ endR = true →
      (findPath mapState startQ startR endQ endR).map (List.map getKey) =
        bfsPath mapState startQ startR endQ endR) := by
  constructor
  · intro st hv
    have h := hv.inv rfl
    refine ⟨?_, h.select, fun current index hsel hgoal => (hv.iteration rfl hsel hgoal).2⟩
    intro x _ y _
    rw [h.fScore_nan]
    rfl
  · intro hcase
    have hkeys := searchLoop_keys_eq_bfsPath mapState startQ startR endQ endR
    by_cases ht : isTraversable mapState endQ endR = true
    · unfold findPath
      simp only [ht, Bool.not_true, Bool.false_eq_true, if_false]
      exact hkeys
    · have hf : isTraversable mapState endQ endR = false := by simpa using ht
      have hne : (startQ, startR) ≠ (endQ, endR) := by
        rcases hcase with h | h
        · exact h
        · exact absurd h ht
      obtain ⟨hinv, hm⟩ := initialSearch_inv mapState { q := startQ, r := startR, s := none }
        { q := endQ, r := endR, s := none } rfl
      obtain ⟨path, hp, hres⟩ := searchLoop_spec mapState (startQ, startR)
        { q := endQ, r := endR, s := none } rfl searchFuel _ hinv hm
      have hnil : path = [] := by
        rcases hres with ⟨h, _⟩ | ⟨d, _, _, hd, _⟩
        · exact h
        · rcases hd.end_cases with ⟨_, e⟩ | ⟨_, htr⟩
          · exact absurd e.symm hne
          · exact absurd htr ht
      rw [hp, hnil] at hkeys
      rw [← hkeys]
      simp [findPath, hf]

/-- The example scenario, and a blocked end other than the start. -/
theorem findPath_is_bfs_witness :
    (findPath scenarioMap 0 0 2 (-1)).map (List.map getKey) = bfsPath scenarioMap 0 0 2 (-1) ∧
      bfsPath scenarioMap 0 0 2 (-1) = some [(0, 0), (1, -1), (2, -1)] ∧
      (findPath blockedCellMap 0 0 1 0).map (List.map getKey) = bfsPath blockedCellMap 0 0 1 0 :=
  ⟨(findPath_is_bfs scenarioMap 0 0 2 (-1)).2 (Or.inl (by decide)), by decide!,
    (findPath_is_bfs blockedCellMap 0 0 1 0).2 (Or.inl (by decide))⟩

/-- C20. For a start within the radius and an end outside it, with no entry in
the map: `isTraversable` is true for the end, no state of the main loop has the
end in `openSet`, the loop runs until `openSet` is empty, and `findPath`
returns the empty path. -/
theorem findPath_out_of_bounds (mapState : MapState) (startQ startR endQ endR : Int)
    (hs : inBounds (startQ, startR)) (he : ¬ inBounds (endQ, endR))
    (hnone : mapState (endQ, endR) = none) :
    isTraversable mapState endQ endR = true ∧
    (∀ st, Visited mapState { q := startQ, r := startR, s := none }
        { q := endQ, r := endR, s := none } st →
      ∀ x ∈ st.openSet, ¬ (x.q = endQ ∧ x.r = endR)) ∧
    searchLoop mapState { q := endQ, r := endR, s := none } searchFuel
      (initialSearch { q := startQ, r := startR, s := none }
        { q := endQ, r := endR, s := none }) = some [] ∧
    findPath mapState startQ startR endQ endR = some [] := by
  have ht : isTraversable mapState endQ endR = true := by
    simp [isTraversable, hnone]
  have hno : ∀ n, ¬ Reach mapState (startQ, startR) n (endQ, endR) := by
    intro n hr
    rcases hr.end_cases with ⟨_, e⟩ | ⟨hb, _⟩
    · exact he (e ▸ hs)
    · exact he hb
  obtain ⟨hinv, hm⟩ := initialSearch_inv mapState { q := startQ, r := startR, s := none }
    { q := endQ, r := endR, s := none } rfl
  obtain ⟨path, hp, hres⟩ := searchLoop_spec mapState (startQ, startR)
    { q := endQ, r := endR, s := none } rfl searchFuel _ hinv hm
  have hnil : path = [] := by
    rcases hres with ⟨h, _⟩ | ⟨d, _, _, hd, _⟩
    · exact h
    · exact absurd hd (hno d)
  subst hnil
  refine ⟨ht, ?_, hp, ?_⟩
  · intro st hv x hx hgoal
    obtain ⟨n, hn⟩ := (hv.inv rfl).open_g x hx
    have hr := (hv.inv rfl).g_reach _ _ hn
    have hk : getKey x = (endQ, endR) := by simp [getKey, hgoal.1, hgoal.2]
    rw [hk] at hr
    exact hno n hr
  · unfold findPath
    simp only [ht, Bool.not_true, Bool.false_eq_true, if_false]
    exact hp

/-- From the camp to `(17, 0)`, one step outside the radius, on the initial map. -/
theorem findPath_out_of_bounds_witness :
    inBounds (0, 0) ∧ ¬ inBounds (17, 0) ∧ initialState (17, 0) = none ∧
      isTraversable initialState 17 0 = true ∧ findPath initialState 0 0 17 0 = some [] := by
  have hn : initialState (17, 0) = none := by
    rw [initialState_apply, if_neg (by decide)]
  have h := findPath_out_of_bounds initialState 0 0 17 0 (by decide) (by decide) hn
  exact ⟨by decide, by decide, hn, h.1, h.2.2.2⟩

end PackHunt
